import Mathlib

/-!
Verification of the classical control logic of the certified-deletion
encryption scheme (the `certified-deletion` repository).

Bit strings are modelled as `List Bool` (`true` stands for the character
`1`), matrices over GF(2) as `List (List Bool)` in row-major order, and the
Python dictionary used for the syndrome-decoding lookup table as an
association list updated in insertion order.  The notebook
`save_error_correcting_code.ipynb` is embedded directly; the helper modules
it imports (`utils`, `states`, `verification_circuit`,
`decryption_circuit`, `encryption_circuit`) are not part of the available
sources and are modelled from the specification, as marked in the
individual doc comments.
-/

namespace CertifiedDeletion

set_option maxRecDepth 100000

/-- Bitwise XOR of two bit strings, position by position (the result is
truncated to the shorter length, as a Python `zip` would). -/
def xorVec (a b : List Bool) : List Bool := List.zipWith xor a b

/-- The Hamming weight of a bit string: its number of `1` characters. -/
def weight (l : List Bool) : Nat := (l.filter id).length

/-- Modelled from the spec (`utils.hamming_distance` is not under `src/`):
the Hamming distance of two bit strings, the number of positions where
they differ. -/
def hamming_distance (a b : List Bool) : Nat :=
  ((a.zip b).filter (fun p => p.1 != p.2)).length

/-- GF(2) dot product of two bit strings (truncated to the shorter one). -/
def dotBits (a b : List Bool) : Bool :=
  ((a.zip b).map (fun p => p.1 && p.2)).foldr xor false

/-- Modelled from the spec (`utils.multiply_bit_string_with_matrix` is not
under `src/`): the GF(2) vector-matrix product `x · M` used on the
syndrome side; entry `j` of the result is the dot product of `x` with
column `j` of `M`. -/
def multiply_bit_string_with_matrix (x : List Bool) (m : List (List Bool)) : List Bool :=
  m.transpose.map (dotBits x)

/-- Modelled from the spec
(`encryption_circuit.xor_multiply_matrix_with_bit_string` is not under
`src/`): the GF(2) matrix-vector product `M · x` realising the 2-universal
hash family `r ↦ M·r`; entry `i` of the result is the dot product of row
`i` of `M` with `x`. -/
def xor_multiply_matrix_with_bit_string (m : List (List Bool)) (x : List Bool) : List Bool :=
  m.map (dotBits x)

/-- Bitwise combination of two natural numbers by a Boolean function, by
primitive recursion on an explicit fuel (the number of binary digits
processed); used to give executable two's-complement semantics to
Python's bitwise operators. -/
def bitwiseBits (f : Bool → Bool → Bool) : Nat → Nat → Nat → Nat
  | 0, _, _ => 0
  | fuel + 1, a, b =>
    if a = 0 ∧ b = 0 then 0
    else 2 * bitwiseBits f fuel (a / 2) (b / 2)
      + (if f (decide (a % 2 = 1)) (decide (b % 2 = 1)) then 1 else 0)

/-- Bitwise AND of two natural numbers (executable by the kernel). -/
def landN (a b : Nat) : Nat := bitwiseBits (fun x y => x && y) (a + b + 1) a b

/-- Bitwise OR of two natural numbers (executable by the kernel). -/
def lorN (a b : Nat) : Nat := bitwiseBits (fun x y => x || y) (a + b + 1) a b

/-- Bitwise difference `a AND (NOT b)` of two natural numbers (executable
by the kernel). -/
def ldiffN (a b : Nat) : Nat := bitwiseBits (fun x y => x && !y) (a + b + 1) a b

/-- Two's-complement bitwise AND on unbounded integers, the semantics of
Python's `&` on `int` (a negative number stands for its infinite
two's-complement bit pattern). -/
def pyAnd : Int → Int → Int
  | .ofNat a, .ofNat b => .ofNat (landN a b)
  | .ofNat a, .negSucc b => .ofNat (ldiffN a b)
  | .negSucc a, .ofNat b => .ofNat (ldiffN b a)
  | .negSucc a, .negSucc b => .negSucc (lorN a b)

/-- Two's-complement bitwise OR on unbounded integers (Python's `|`). -/
def pyOr : Int → Int → Int
  | .ofNat a, .ofNat b => .ofNat (lorN a b)
  | .ofNat a, .negSucc b => .negSucc (ldiffN b a)
  | .negSucc a, .ofNat b => .negSucc (ldiffN a b)
  | .negSucc a, .negSucc b => .negSucc (landN a b)

/-- Two's-complement bitwise complement on unbounded integers
(Python's `~`). -/
def pyNot (x : Int) : Int := -x - 1

/-- One iteration of the loop body of `kbits`
(`src/save_error_correcting_code.ipynb`): from the current value, the next
integer obtained by Gosper's hack, computed with Python's
unbounded-integer bitwise operators (`minbit * 2` is `minbit << 1`). -/
def gosperNext (val : Int) : Int :=
  let minbit := pyAnd val (-val)
  let fillbit := pyAnd (val + minbit) (pyNot val)
  pyOr (val + minbit) (Int.fdiv fillbit (minbit * 2) - 1)

/-- The `n`-bit big-endian binary representation of a value below `2 ^ n`
(models Python's `"{0:0{1}b}".format(val, n)` for such values). -/
def toBits : Nat → Nat → List Bool
  | 0, _ => []
  | n + 1, v => toBits n (v / 2) ++ [decide (v % 2 = 1)]

/-- The numeric value of a big-endian bit string (the inverse of
`toBits`). -/
def ofBits : List Bool → Nat :=
  List.foldl (fun acc b => 2 * acc + (if b then 1 else 0)) 0

/-- The loop of `kbits`, with an explicit fuel bounding the number of
iterations; `kbits` supplies fuel `2 ^ n`, which is enough for the source's
`while val < limit` loop to run to completion because the value strictly
increases at every step while it stays below `limit`. -/
def kbitsAux (n : Nat) (limit : Int) : Nat → Int → List (List Bool)
  | 0, _ => []
  | fuel + 1, val =>
    if val < limit then toBits n val.toNat :: kbitsAux n limit fuel (gosperNext val)
    else []

/-- `kbits` from `src/save_error_correcting_code.ipynb`: the generator of
the `n`-bit strings of Hamming weight `k` by Gosper's hack, starting from
`(1 << k) - 1` and stopping at `limit = 1 << n`, realised as the list of
yielded strings. -/
def kbits (n k : Nat) : List (List Bool) :=
  kbitsAux n ((1 <<< n : Nat) : Int) (2 ^ n) (((1 <<< k : Nat) : Int) - 1)

/-- The number of `1` bits of a natural number (the Hamming weight of its
binary representation). -/
def popcount (v : Nat) : Nat :=
  if v = 0 then 0 else popcount (v / 2) + v % 2
decreasing_by exact Nat.bitwise_rec_lemma (by assumption)

/-- The parity-check matrix entered in `src/save_error_correcting_code.ipynb`
(the result of `process_matrix_string` on the SageMath print-out of the
Hamming(15, 11) parity-check matrix); a row is given as `0`/`1` integers
and converted to bits. -/
def rowBits (l : List Nat) : List Bool := l.map (fun a => a == 1)

/-- `parity_check_matrix` from `src/save_error_correcting_code.ipynb`. -/
def parity_check_matrix : List (List Bool) :=
  [rowBits [1, 0, 1, 0, 1, 0, 1, 0, 1, 0, 1, 0, 1, 0, 1],
   rowBits [0, 1, 1, 0, 0, 1, 1, 0, 0, 1, 1, 0, 0, 1, 1],
   rowBits [0, 0, 0, 1, 1, 1, 1, 0, 0, 0, 0, 1, 1, 1, 1],
   rowBits [0, 0, 0, 0, 0, 0, 0, 1, 1, 1, 1, 1, 1, 1, 1]]

/-- `H_transpose` from `src/save_error_correcting_code.ipynb`:
`[[row[j] for row in parity_check_matrix] for j in range(len(parity_check_matrix[0]))]`. -/
def H_transpose : List (List Bool) := parity_check_matrix.transpose

/-- Insertion into a Python `dict` modelled as an association list: an
existing binding of the key is overwritten in place, otherwise the new
binding is appended at the end (insertion order). -/
def dictInsert {α β : Type} [DecidableEq α] (k : α) (v : β) : List (α × β) → List (α × β)
  | [] => [(k, v)]
  | (k', v') :: t => if k' = k then (k, v) :: t else (k', v') :: dictInsert k v t

/-- `build_decoding_lookup_table` from
`src/save_error_correcting_code.ipynb`: the table from syndromes
`e · H_transpose` to error strings `e`, over all error strings of weight
`1 .. max_error_string_weight`, seeded with the all-zero syndrome mapping
to the all-zero error string. -/
def build_decoding_lookup_table (codeword_length max_error_string_weight : Nat) :
    List (List Bool × List Bool) :=
  let table := dictInsert (List.replicate parity_check_matrix.length false)
    (List.replicate codeword_length false) ([] : List (List Bool × List Bool))
  (List.range' 1 max_error_string_weight).foldl (fun table w =>
    (kbits codeword_length w).foldl (fun table error_string =>
      dictInsert (multiply_bit_string_with_matrix error_string H_transpose) error_string table)
      table) table

/-- `decoding_lookup_table` from `src/save_error_correcting_code.ipynb`:
`build_decoding_lookup_table(len(parity_check_matrix[0]), 1)`. -/
def decoding_lookup_table : List (List Bool × List Bool) :=
  build_decoding_lookup_table ((parity_check_matrix.head?.getD []).length) 1

/-- The per-position measurement-basis labels of the scheme (the
adversarial Breidbart basis lives only in the excluded measurement
collaborator and is not needed classically). -/
inductive Basis
  | computational
  | hadamard
deriving DecidableEq

/-- Modelled from the spec (`global_parameters.GlobalParameters` /
`scheme_parameters.SchemeParameters` are not under `src/`): the immutable
scheme dimensions together with the error-correcting-code data and the
digest function used for tamper detection. -/
structure ParameterSet where
  n : Nat
  m : Nat
  k : Nat
  s : Nat
  tau : Nat
  H : List (List Bool)
  table : List (List Bool × List Bool)
  digestFn : List Bool → List Bool

/-- Modelled from the spec (`states.Key` is not under `src/`): the basis
string `theta` (length `m`), the per-position raw value `r` (one intended
bit per position; its restriction to the COMPUTATIONAL positions is the
length-`s` raw randomness hashed by `M`, its restriction to the HADAMARD
positions is the expected deletion certificate), and the `tau × s`
extractor matrix `M`. -/
structure KeyMaterial where
  theta : List Basis
  r : List Bool
  M : List (List Bool)

/-- Modelled from the spec (`states.Ciphertext` is not under `src/`): the
public classical part of the Ciphertext descriptor: `d = message XOR (M·r)`
and the digest of the raw value. -/
structure CiphertextData where
  d : List Bool
  digest : List Bool

/-- The sub-string of `meas` at the positions whose basis label in `theta`
is `b`, in position order. -/
def restrictToBasis (meas : List Bool) (theta : List Basis) (b : Basis) : List Bool :=
  ((meas.zip theta).filter (fun p => decide (p.2 = b))).map (fun p => p.1)

/-- The restriction of the raw value to the COMPUTATIONAL (message)
positions: the noiseless value of `r'` in §4.5 of the spec. -/
def rawComp (key : KeyMaterial) : List Bool :=
  restrictToBasis key.r key.theta Basis.computational

/-- The expected deletion certificate: `r` restricted to the
HADAMARD-basis positions of `theta`. -/
def expectedCertificate (key : KeyMaterial) : List Bool :=
  restrictToBasis key.r key.theta Basis.hadamard

/-- Modelled from the spec (`encryption_circuit.encrypt` is not under
`src/`): the classical part of encryption, producing
`d = message XOR (M · r)` over GF(2) and the stored digest of the raw
value (the quantum state preparation is the excluded collaborator). -/
def encrypt (message : List Bool) (key : KeyMaterial) (params : ParameterSet) :
    CiphertextData :=
  { d := xorVec message (xor_multiply_matrix_with_bit_string key.M (rawComp key)),
    digest := params.digestFn (rawComp key) }

/-- The verdict of the certificate verifier: accepted, or rejected with
the diagnostic Hamming distance. -/
inductive VerificationResult
  | accepted
  | rejected (hammingDist : Nat)
deriving DecidableEq

/-- Modelled from the spec (`verification_circuit.verify_deletion` is not
under `src/`): the received certificate is accepted iff it is exactly
equal to `r` restricted to the HADAMARD-basis positions of `theta`; on
rejection the Hamming distance to the expected string is reported. -/
def verify_deletion (measurement : List Bool) (key : KeyMaterial)
    (_params : ParameterSet) : VerificationResult :=
  if measurement = expectedCertificate key then VerificationResult.accepted
  else VerificationResult.rejected (hamming_distance measurement (expectedCertificate key))

/-- The outcome of a single decryption. -/
inductive DecryptResult
  | correct
  | incorrect
  | tamperDetected
deriving DecidableEq

/-- Modelled from the spec (the decoding step of
`decryption_circuit.decrypt_single_result` is not under `src/`): compute
the syndrome `H · r'`, look it up in the decoding table, and XOR the found
error pattern out of `r'`; when the syndrome is absent from the table the
value is returned unchanged (graceful decoding failure). -/
def syndromeDecode (H : List (List Bool)) (table : List (List Bool × List Bool))
    (rp : List Bool) : List Bool :=
  match table.lookup (xor_multiply_matrix_with_bit_string H rp) with
  | some e => xorVec rp e
  | none => rp

/-- The corrected raw value `r-hat` of §4.5: the syndrome-decoded `r'`
when `error_correct` is set, `r'` unchanged otherwise. -/
def correctedRaw (errorCorrect : Bool) (params : ParameterSet) (rp : List Bool) :
    List Bool :=
  if errorCorrect then syndromeDecode params.H params.table rp else rp

/-- Modelled from the spec (`decryption_circuit.decrypt_single_result` is
not under `src/`): steps 1-4 of §4.5: restrict the measurement to the
COMPUTATIONAL positions, optionally error-correct, detect tampering by
recomputing the digest, then recover `m-hat = d XOR (M · r-hat)` and
compare it with the expected message. -/
def decrypt (measurement : List Bool) (key : KeyMaterial) (ct : CiphertextData)
    (message : List Bool) (params : ParameterSet) (errorCorrect : Bool) :
    DecryptResult :=
  let rp := restrictToBasis measurement key.theta Basis.computational
  let rhat := correctedRaw errorCorrect params rp
  if params.digestFn rhat ≠ ct.digest then DecryptResult.tamperDetected
  else if xorVec ct.d (xor_multiply_matrix_with_bit_string key.M rhat) = message then
    DecryptResult.correct
  else DecryptResult.incorrect

/-- Modelled from the spec and the recorded experiment headers
(`states.Key.generate_key` is not under `src/`; every header in
`src/results/*/results.txt` reports a fixed count `m - s` of deletion
positions): the sampled indicator string `certChoice` marks the
certificate positions, which become the HADAMARD entries of `theta`; `r`
and `M` are the sampled raw value and extractor matrix. -/
def generate_key (_params : ParameterSet) (certChoice : List Bool) (r : List Bool)
    (M : List (List Bool)) : KeyMaterial :=
  { theta := certChoice.map (fun c => if c then Basis.hadamard else Basis.computational),
    r := r, M := M }

/-- The number of deletion-certificate positions of a basis string: the
count of its HADAMARD entries. -/
def countHadamard (theta : List Basis) : Nat :=
  (theta.filter (fun b => decide (b = Basis.hadamard))).length

/-- The ParameterSet of the recorded experiment
`src/results/cmc-3-2022-07-13 07-58-22_494085` (header: message length 4,
total qubits 15, deletion qubits 8, message-encryption qubits 7), with the
saved Hamming(15, 11) code; the digest is left as the identity, which the
spec leaves unspecified. -/
def experimentParams : ParameterSet :=
  { n := 4, m := 15, k := 8, s := 7, tau := 4,
    H := parity_check_matrix, table := decoding_lookup_table,
    digestFn := fun l => l }

/-- The aggregate result of the batched certificate verification: accept
and reject totals, and the histogram of Hamming distances of the rejected
strings (a distance maps to the total multiplicity observed at that
distance; absent buckets are 0). -/
structure BatchedVerifyResult where
  accepted : Nat
  rejected : Nat
  hist : Nat → Nat

/-- Modelled from the spec (`verification_circuit.verify_deletion_counts`
is not under `src/`): fold the per-string verdicts, weighted by their
multiplicities, into aggregate accept/reject counts and the
Hamming-distance histogram of the rejected strings. -/
def verify_deletion_counts (counts : List (List Bool × Nat)) (key : KeyMaterial)
    (params : ParameterSet) : BatchedVerifyResult :=
  counts.foldl (fun acc p =>
    match verify_deletion p.1 key params with
    | VerificationResult.accepted => { acc with accepted := acc.accepted + p.2 }
    | VerificationResult.rejected dist =>
      { acc with rejected := acc.rejected + p.2,
                 hist := fun d => if d = dist then acc.hist d + p.2 else acc.hist d })
    { accepted := 0, rejected := 0, hist := fun _ => 0 }

/-- The aggregate result of the batched decryption: totals of the three
per-string outcomes. -/
structure BatchedDecryptResult where
  correct : Nat
  incorrect : Nat
  tamperDetected : Nat
deriving DecidableEq

/-- Modelled from the spec (`decryption_circuit.decrypt_results` is not
under `src/`): fold the per-string decryption outcomes, weighted by their
multiplicities, into aggregate Correct/Incorrect/TamperDetected counts. -/
def decrypt_results (counts : List (List Bool × Nat)) (key : KeyMaterial)
    (ct : CiphertextData) (message : List Bool) (params : ParameterSet)
    (errorCorrect : Bool) : BatchedDecryptResult :=
  counts.foldl (fun acc p =>
    match decrypt p.1 key ct message params errorCorrect with
    | DecryptResult.correct => { acc with correct := acc.correct + p.2 }
    | DecryptResult.incorrect => { acc with incorrect := acc.incorrect + p.2 }
    | DecryptResult.tamperDetected => { acc with tamperDetected := acc.tamperDetected + p.2 })
    { correct := 0, incorrect := 0, tamperDetected := 0 }

/-- The bit string of length `n` with a single `1` at position `i`. -/
def oneHot (n i : Nat) : List Bool := (List.replicate n false).set i true

/-- A concrete two-position key used to instantiate the certificate
verifier: one HADAMARD (certificate) position holding bit `1` and one
COMPUTATIONAL position holding bit `0`. -/
def keyW : KeyMaterial :=
  { theta := [Basis.hadamard, Basis.computational], r := [true, false], M := [[true]] }

/-- A one-position parameter set whose decoding table is empty, so that
every syndrome lookup misses. -/
def paramsEmptyTable : ParameterSet :=
  { n := 1, m := 1, k := 0, s := 1, tau := 1, H := [[true]], table := [],
    digestFn := fun l => l }

/-- A concrete all-COMPUTATIONAL key over the 15 positions of the saved
Hamming code, whose raw value is a single `1` bit: its noiseless raw
value is a weight-1 string, which the weight-1 decoding table maps to the
all-zero string. -/
def keyCx : KeyMaterial :=
  { theta := List.replicate 15 Basis.computational, r := oneHot 15 0,
    M := List.replicate 4 (List.replicate 15 false) }

/-- The all-zero message of the experiment's length `n = 4`. -/
def messageCx : List Bool := List.replicate 4 false

/-- The sampled certificate-position indicator of the recorded
experiments: 8 certificate positions among 15. -/
def certChoice8 : List Bool := List.replicate 8 true ++ List.replicate 7 false

/-!
Helper lemmas on the bit-string primitives.
-/

lemma xorVec_cons (x y : Bool) (a b : List Bool) :
    xorVec (x :: a) (y :: b) = xor x y :: xorVec a b := rfl

lemma xorVec_cancel (a b : List Bool) (h : a.length = b.length) :
    xorVec (xorVec a b) b = a := by
  induction a generalizing b with
  | nil =>
    cases b with
    | nil => rfl
    | cons y b => simp at h
  | cons x a ih =>
    cases b with
    | nil => simp at h
    | cons y b =>
      simp only [List.length_cons, Nat.add_right_cancel_iff] at h
      rw [xorVec_cons, xorVec_cons, ih b h]
      cases x <;> cases y <;> rfl

lemma xorVec_replicate_false_right (a : List Bool) :
    xorVec a (List.replicate a.length false) = a := by
  induction a with
  | nil => rfl
  | cons x a ih =>
    simp only [List.length_cons, List.replicate_succ, xorVec_cons, ih]
    cases x <;> rfl

lemma hamming_distance_self (a : List Bool) : hamming_distance a a = 0 := by
  induction a with
  | nil => rfl
  | cons x a ih =>
    simp only [hamming_distance, List.zip_cons_cons, List.filter_cons] at ih ⊢
    simpa using ih

lemma ne_of_hamming_distance_eq_one {a b : List Bool}
    (h : hamming_distance a b = 1) : a ≠ b := by
  intro hab
  rw [hab, hamming_distance_self] at h
  exact Nat.zero_ne_one h

/-- C1: `verify_deletion` returns `Accepted` if and only if the received
certificate equals `r` restricted to the HADAMARD-basis positions of
`theta`, and a certificate differing from the expected string in exactly
one bit (Hamming distance 1) is rejected with reported distance exactly
1. -/
theorem verify_deletion_exact (key : KeyMaterial) (params : ParameterSet)
    (c meas : List Bool)
    (hham : hamming_distance meas (expectedCertificate key) = 1) :
    (verify_deletion c key params = VerificationResult.accepted ↔
      c = expectedCertificate key)
    ∧ verify_deletion meas key params = VerificationResult.rejected 1 := by
  constructor
  · unfold verify_deletion
    by_cases hc : c = expectedCertificate key
    · rw [if_pos hc]
      simp [hc]
    · rw [if_neg hc]
      simp [hc]
  · unfold verify_deletion
    rw [if_neg (ne_of_hamming_distance_eq_one hham), hham]

/-- Witness for C1 at a concrete key: the expected certificate of `keyW`
is `[1]`; the string `[0]` is at Hamming distance 1 and is rejected with
distance 1, while acceptance of `[1]` is equivalent to it being the
expected string. -/
theorem verify_deletion_exact_witness :
    hamming_distance [false] (expectedCertificate keyW) = 1
    ∧ ((verify_deletion [true] keyW experimentParams = VerificationResult.accepted ↔
        [true] = expectedCertificate keyW)
      ∧ verify_deletion [false] keyW experimentParams = VerificationResult.rejected 1) :=
  ⟨by decide, verify_deletion_exact keyW experimentParams [true] [false] (by decide)⟩

/-- C3: when the computed syndrome of `r'` is absent from the decoding
table, decryption with error correction does not fail: the corrected
value equals `r'` unchanged, and the whole call produces the very same
verdict as decryption without error correction (the digest check and
message recovery still run; no exception escapes). -/
theorem decrypt_decoding_failure_graceful (meas : List Bool) (key : KeyMaterial)
    (ct : CiphertextData) (message : List Bool) (params : ParameterSet)
    (h : params.table.lookup (xor_multiply_matrix_with_bit_string params.H
      (restrictToBasis meas key.theta Basis.computational)) = none) :
    correctedRaw true params (restrictToBasis meas key.theta Basis.computational)
      = restrictToBasis meas key.theta Basis.computational
    ∧ decrypt meas key ct message params true = decrypt meas key ct message params false := by
  have hcr : correctedRaw true params (restrictToBasis meas key.theta Basis.computational)
      = restrictToBasis meas key.theta Basis.computational := by
    unfold correctedRaw syndromeDecode
    rw [if_pos rfl, h]
  refine ⟨hcr, ?_⟩
  simp only [decrypt]
  rw [hcr]
  have hf : correctedRaw false params (restrictToBasis meas key.theta Basis.computational)
      = restrictToBasis meas key.theta Basis.computational := rfl
  rw [hf]

/-- Witness for C3: with an empty decoding table every lookup misses, and
error-corrected decryption agrees with uncorrected decryption. -/
theorem decrypt_decoding_failure_graceful_witness :
    paramsEmptyTable.table.lookup (xor_multiply_matrix_with_bit_string paramsEmptyTable.H
      (restrictToBasis [true] keyW.theta Basis.computational)) = none
    ∧ (correctedRaw true paramsEmptyTable
        (restrictToBasis [true] keyW.theta Basis.computational)
        = restrictToBasis [true] keyW.theta Basis.computational
      ∧ decrypt [true] keyW ⟨[false], [false]⟩ [true] paramsEmptyTable true
        = decrypt [true] keyW ⟨[false], [false]⟩ [true] paramsEmptyTable false) :=
  ⟨rfl, decrypt_decoding_failure_graceful [true] keyW ⟨[false], [false]⟩ [true]
    paramsEmptyTable rfl⟩

/-- C4: whenever the recomputed digest of the corrected raw value differs
from the digest stored in the Ciphertext descriptor, `decrypt` reports
`TamperDetected` — for every message, so in particular regardless of
whether the recovered candidate message equals the expected one. -/
theorem decrypt_tamper_detection_independent (meas : List Bool) (key : KeyMaterial)
    (ct : CiphertextData) (message : List Bool) (params : ParameterSet)
    (errorCorrect : Bool)
    (h : params.digestFn (correctedRaw errorCorrect params
      (restrictToBasis meas key.theta Basis.computational)) ≠ ct.digest) :
    decrypt meas key ct message params errorCorrect = DecryptResult.tamperDetected := by
  unfold decrypt
  rw [if_pos h]

/-- Witness for C4 at a concrete input where the recovered candidate
message does equal the expected message and tampering is still reported:
`keyW` holds raw value `0` at its COMPUTATIONAL position, the stored
digest is `[1]` (mismatching the recomputed `[0]`), and
`d XOR M·r-hat = [0] = message`. -/
theorem decrypt_tamper_detection_independent_witness :
    (experimentParams.digestFn (correctedRaw false experimentParams
        (restrictToBasis [true, false] keyW.theta Basis.computational)) ≠ ([true] : List Bool))
    ∧ xorVec ([false] : List Bool) (xor_multiply_matrix_with_bit_string keyW.M
        (correctedRaw false experimentParams
          (restrictToBasis [true, false] keyW.theta Basis.computational))) = [false]
    ∧ decrypt [true, false] keyW ⟨[false], [true]⟩ [false] experimentParams false
      = DecryptResult.tamperDetected :=
  ⟨by decide, by decide,
    decrypt_tamper_detection_independent [true, false] keyW ⟨[false], [true]⟩ [false]
      experimentParams false (by decide)⟩

/-- C2 (amended): round-trip with the identity measurement oracle. For
every parameter set, every key whose extractor matrix has one row per
message bit, and every message, feeding the intended per-position values
back into the decoder and the verifier yields `Correct` (with
`error_correct = false`, the mode of the cited `decrypt_results` call) and
`Accepted`. -/
theorem round_trip_identity_oracle (params : ParameterSet) (key : KeyMaterial)
    (message : List Bool) (hM : key.M.length = message.length) :
    decrypt key.r key (encrypt message key params) message params false
      = DecryptResult.correct
    ∧ verify_deletion (expectedCertificate key) key params
      = VerificationResult.accepted := by
  constructor
  · simp only [decrypt, encrypt]
    have hrp : restrictToBasis key.r key.theta Basis.computational = rawComp key := rfl
    have hcr : correctedRaw false params (rawComp key) = rawComp key := rfl
    rw [hrp, hcr]
    rw [if_neg (by simp)]
    rw [if_pos]
    exact xorVec_cancel message _ (by
      rw [← hM]
      exact (List.length_map key.M (dotBits (rawComp key))).symm)
  · unfold verify_deletion
    rw [if_pos rfl]

/-- Witness for C2 at the concrete experiment key `keyCx` and message
`messageCx` (`key.M` has 4 rows, the message has 4 bits). -/
theorem round_trip_identity_oracle_witness :
    keyCx.M.length = messageCx.length
    ∧ (decrypt keyCx.r keyCx (encrypt messageCx keyCx experimentParams) messageCx
        experimentParams false = DecryptResult.correct
      ∧ verify_deletion (expectedCertificate keyCx) keyCx experimentParams
        = VerificationResult.accepted) :=
  ⟨by decide, round_trip_identity_oracle experimentParams keyCx messageCx (by decide)⟩

/-- Counterexample to C2 as stated: with the repository's own weight-1
Hamming decoding table, the identity-oracle round trip fails when
`error_correct = true`. The noiseless raw value of `keyCx` is the
weight-1 string `oneHot 15 0`; its syndrome is present in the table, the
"correction" turns it into the all-zero string, the recomputed digest no
longer matches, and `decrypt` reports `TamperDetected` instead of
`Correct`. -/
theorem round_trip_identity_oracle_counterexample :
    decrypt keyCx.r keyCx (encrypt messageCx keyCx experimentParams) messageCx
      experimentParams true = DecryptResult.tamperDetected
    ∧ decrypt keyCx.r keyCx (encrypt messageCx keyCx experimentParams) messageCx
      experimentParams true ≠ DecryptResult.correct := by
  constructor
  · decide
  · decide

/-- C6 (counterexample): the number of deletion-certificate positions is
not `m - n`. For the recorded experiment parameters (`m = 15`, `n = 4`,
message-encryption positions `s = 7`) and the sampled certificate-position
indicator of weight 8 used by the experiments, the generated key has 8
HADAMARD positions while `m - n = 11`. -/
theorem cert_position_count_counterexample :
    countHadamard (generate_key experimentParams certChoice8 (oneHot 15 0)
      (List.replicate 4 (List.replicate 15 false))).theta = 8
    ∧ experimentParams.m - experimentParams.n = 11
    ∧ (8 : Nat) ≠ 11 := by
  refine ⟨by decide, by decide, by decide⟩

/-- The HADAMARD count of a generated key is the weight of the sampled
certificate-position indicator. -/
lemma countHadamard_generate_key (params : ParameterSet) (certChoice r : List Bool)
    (M : List (List Bool)) :
    countHadamard (generate_key params certChoice r M).theta = weight certChoice := by
  unfold countHadamard generate_key weight
  induction certChoice with
  | nil => rfl
  | cons c t ih =>
    cases c <;> simpa using ih

/-- C6 (amended): for every parameter set satisfying the recorded
experiments' relation `k = m - s` (8 = 15 - 7 and 20 = 27 - 7 in the
result headers) and every key generated from a sampled
certificate-position indicator of weight `k`, the number of
deletion-certificate positions (HADAMARD entries of `theta`) equals
`k = m - s`: the total position count minus the message-encryption
position count, not minus the message length. -/
theorem cert_position_count (params : ParameterSet) (certChoice r : List Bool)
    (M : List (List Bool)) (hk : params.k = params.m - params.s)
    (hw : weight certChoice = params.k) :
    countHadamard (generate_key params certChoice r M).theta = params.m - params.s := by
  rw [countHadamard_generate_key, hw, hk]

/-- Witness for C6 at the experiment parameters (`k = 8 = 15 - 7`) and the
weight-8 indicator `certChoice8`. -/
theorem cert_position_count_witness :
    experimentParams.k = experimentParams.m - experimentParams.s
    ∧ weight certChoice8 = experimentParams.k
    ∧ countHadamard (generate_key experimentParams certChoice8 (oneHot 15 0)
        []).theta = experimentParams.m - experimentParams.s :=
  ⟨by decide, by decide,
    cert_position_count experimentParams certChoice8 (oneHot 15 0) [] (by decide) (by decide)⟩

lemma verify_step_comm (key : KeyMaterial) (params : ParameterSet)
    (acc : BatchedVerifyResult) (p q : List Bool × Nat) :
    ((fun (acc : BatchedVerifyResult) (p : List Bool × Nat) =>
      match verify_deletion p.1 key params with
      | VerificationResult.accepted => { acc with accepted := acc.accepted + p.2 }
      | VerificationResult.rejected dist =>
        { acc with rejected := acc.rejected + p.2,
                   hist := fun d => if d = dist then acc.hist d + p.2 else acc.hist d })
      ((fun (acc : BatchedVerifyResult) (p : List Bool × Nat) =>
      match verify_deletion p.1 key params with
      | VerificationResult.accepted => { acc with accepted := acc.accepted + p.2 }
      | VerificationResult.rejected dist =>
        { acc with rejected := acc.rejected + p.2,
                   hist := fun d => if d = dist then acc.hist d + p.2 else acc.hist d })
        acc p) q)
    = ((fun (acc : BatchedVerifyResult) (p : List Bool × Nat) =>
      match verify_deletion p.1 key params with
      | VerificationResult.accepted => { acc with accepted := acc.accepted + p.2 }
      | VerificationResult.rejected dist =>
        { acc with rejected := acc.rejected + p.2,
                   hist := fun d => if d = dist then acc.hist d + p.2 else acc.hist d })
      ((fun (acc : BatchedVerifyResult) (p : List Bool × Nat) =>
      match verify_deletion p.1 key params with
      | VerificationResult.accepted => { acc with accepted := acc.accepted + p.2 }
      | VerificationResult.rejected dist =>
        { acc with rejected := acc.rejected + p.2,
                   hist := fun d => if d = dist then acc.hist d + p.2 else acc.hist d })
        acc q) p) := by
  cases hv1 : verify_deletion p.1 key params with
  | accepted =>
    cases hv2 : verify_deletion q.1 key params with
    | accepted => simp [hv1, hv2, Nat.add_right_comm]
    | rejected d2 => simp [hv1, hv2]
  | rejected d1 =>
    cases hv2 : verify_deletion q.1 key params with
    | accepted => simp [hv1, hv2]
    | rejected d2 =>
      simp only [hv1, hv2, BatchedVerifyResult.mk.injEq]
      refine ⟨trivial, Nat.add_right_comm _ _ _, ?_⟩
      funext d
      split_ifs <;> omega

lemma decrypt_step_comm (key : KeyMaterial) (ct : CiphertextData) (message : List Bool)
    (params : ParameterSet) (errorCorrect : Bool)
    (acc : BatchedDecryptResult) (p q : List Bool × Nat) :
    ((fun (acc : BatchedDecryptResult) (p : List Bool × Nat) =>
      match decrypt p.1 key ct message params errorCorrect with
      | DecryptResult.correct => { acc with correct := acc.correct + p.2 }
      | DecryptResult.incorrect => { acc with incorrect := acc.incorrect + p.2 }
      | DecryptResult.tamperDetected => { acc with tamperDetected := acc.tamperDetected + p.2 })
      ((fun (acc : BatchedDecryptResult) (p : List Bool × Nat) =>
      match decrypt p.1 key ct message params errorCorrect with
      | DecryptResult.correct => { acc with correct := acc.correct + p.2 }
      | DecryptResult.incorrect => { acc with incorrect := acc.incorrect + p.2 }
      | DecryptResult.tamperDetected => { acc with tamperDetected := acc.tamperDetected + p.2 })
        acc p) q)
    = ((fun (acc : BatchedDecryptResult) (p : List Bool × Nat) =>
      match decrypt p.1 key ct message params errorCorrect with
      | DecryptResult.correct => { acc with correct := acc.correct + p.2 }
      | DecryptResult.incorrect => { acc with incorrect := acc.incorrect + p.2 }
      | DecryptResult.tamperDetected => { acc with tamperDetected := acc.tamperDetected + p.2 })
      ((fun (acc : BatchedDecryptResult) (p : List Bool × Nat) =>
      match decrypt p.1 key ct message params errorCorrect with
      | DecryptResult.correct => { acc with correct := acc.correct + p.2 }
      | DecryptResult.incorrect => { acc with incorrect := acc.incorrect + p.2 }
      | DecryptResult.tamperDetected => { acc with tamperDetected := acc.tamperDetected + p.2 })
        acc q) p) := by
  cases hv1 : decrypt p.1 key ct message params errorCorrect <;>
    cases hv2 : decrypt q.1 key ct message params errorCorrect <;>
      simp [hv1, hv2, Nat.add_right_comm]

/-- C8: the batched forms are order-independent reductions: for every
mapping from measurement strings to counts (as a list of entries), every
permutation of the entries produces the same aggregate accept/reject
counts and Hamming-distance histogram from `verify_deletion_counts`, and
the same Correct/Incorrect/TamperDetected counts from
`decrypt_results`. -/
theorem batched_order_independence (key : KeyMaterial) (params : ParameterSet)
    (ct : CiphertextData) (message : List Bool) (errorCorrect : Bool)
    (l1 l2 : List (List Bool × Nat)) (hp : l1.Perm l2) :
    verify_deletion_counts l1 key params = verify_deletion_counts l2 key params
    ∧ decrypt_results l1 key ct message params errorCorrect
      = decrypt_results l2 key ct message params errorCorrect := by
  constructor
  · unfold verify_deletion_counts
    haveI : RightCommutative (fun (acc : BatchedVerifyResult) (p : List Bool × Nat) =>
        match verify_deletion p.1 key params with
        | VerificationResult.accepted => { acc with accepted := acc.accepted + p.2 }
        | VerificationResult.rejected dist =>
          { acc with rejected := acc.rejected + p.2,
                     hist := fun d => if d = dist then acc.hist d + p.2 else acc.hist d }) :=
      ⟨fun acc p q => verify_step_comm key params acc p q⟩
    exact hp.foldl_eq _
  · unfold decrypt_results
    haveI : RightCommutative (fun (acc : BatchedDecryptResult) (p : List Bool × Nat) =>
        match decrypt p.1 key ct message params errorCorrect with
        | DecryptResult.correct => { acc with correct := acc.correct + p.2 }
        | DecryptResult.incorrect => { acc with incorrect := acc.incorrect + p.2 }
        | DecryptResult.tamperDetected =>
          { acc with tamperDetected := acc.tamperDetected + p.2 }) :=
      ⟨fun acc p q => decrypt_step_comm key ct message params errorCorrect acc p q⟩
    exact hp.foldl_eq _

/-- Witness for C8 at a concrete two-entry mapping and its swap. -/
theorem batched_order_independence_witness :
    ([([true], 1), ([false], 2)] : List (List Bool × Nat)).Perm
      [([false], 2), ([true], 1)]
    ∧ (verify_deletion_counts [([true], 1), ([false], 2)] keyW experimentParams
        = verify_deletion_counts [([false], 2), ([true], 1)] keyW experimentParams
      ∧ decrypt_results [([true], 1), ([false], 2)] keyW ⟨[false], [true]⟩ [false]
          experimentParams false
        = decrypt_results [([false], 2), ([true], 1)] keyW ⟨[false], [true]⟩ [false]
          experimentParams false) :=
  ⟨List.Perm.swap _ _ _,
    batched_order_independence keyW experimentParams ⟨[false], [true]⟩ [false] false
      _ _ (List.Perm.swap _ _ _)⟩

/-!
Counting development for the 2-universality bound of the extractor.
-/

lemma dotBits_nil_right (a : List Bool) : dotBits a [] = false := by
  cases a <;> rfl

lemma dotBits_cons (x y : Bool) (a b : List Bool) :
    dotBits (x :: a) (y :: b) = xor (x && y) (dotBits a b) := rfl

lemma dotBits_replicate_false_left (n : Nat) (b : List Bool) :
    dotBits (List.replicate n false) b = false := by
  induction n generalizing b with
  | zero => rfl
  | succ n ih =>
    cases b with
    | nil => rfl
    | cons y b => simpa [List.replicate_succ, dotBits_cons] using ih b

lemma dotBits_set_second (a : List Bool) :
    ∀ (b : List Bool) (i : Nat) (hia : i < a.length) (hib : i < b.length),
    a.get ⟨i, hia⟩ = true →
    dotBits a (b.set i (!(b.get ⟨i, hib⟩))) = !(dotBits a b) := by
  induction a with
  | nil => intro b i hia; simp at hia
  | cons x a ih =>
    intro b i hia hib ha
    cases b with
    | nil => simp at hib
    | cons y b =>
      cases i with
      | zero =>
        simp only [List.get] at ha
        subst ha
        simp only [List.get, List.set, dotBits_cons]
        cases y <;> cases dotBits a b <;> rfl
      | succ i =>
        simp only [List.get] at ha
        simp only [List.get, List.set, dotBits_cons]
        rw [ih b i (Nat.lt_of_succ_lt_succ hia) (Nat.lt_of_succ_lt_succ hib) ha]
        cases x && y <;> cases dotBits a b <;> rfl

lemma ofFn_update {n : Nat} (f : Fin n → Bool) (i : Fin n) (v : Bool) :
    List.ofFn (Function.update f i v) = (List.ofFn f).set i v := by
  apply List.ext_getElem
  · rw [List.length_ofFn, List.length_set, List.length_ofFn]
  · intro j h1 h2
    simp only [List.getElem_ofFn, List.getElem_set]
    rw [Function.update_apply]
    split_ifs with hA hB hB
    · rfl
    · exact absurd (congrArg Fin.val hA).symm hB
    · exact absurd (Fin.ext hB.symm) hA
    · rfl

lemma get_ofFn {n : Nat} (f : Fin n → Bool) (i : Fin n) (h : i.1 < (List.ofFn f).length) :
    (List.ofFn f).get ⟨i.1, h⟩ = f i := by
  simp [List.get_eq_getElem, List.getElem_ofFn]

/-- For a nonzero `r`, flipping a coordinate of `row` where `r` holds a
`1` flips the dot product, giving a bijection between the two fibers of
`row ↦ r · row`; hence each fiber has exactly half of all `2 ^ s` rows. -/
lemma card_row_fiber (s : Nat) (r : Fin s → Bool) (i0 : Fin s) (hr : r i0 = true)
    (c : Bool) :
    Fintype.card {row : Fin s → Bool //
      dotBits (List.ofFn r) (List.ofFn row) = c} = 2 ^ (s - 1) := by
  have hflip : ∀ (row : Fin s → Bool),
      dotBits (List.ofFn r) (List.ofFn (Function.update row i0 (!row i0)))
        = !(dotBits (List.ofFn r) (List.ofFn row)) := by
    intro row
    have hrow : row i0 = (List.ofFn row).get ⟨i0.1, by simp [i0.2]⟩ := by
      rw [get_ofFn]
    rw [ofFn_update, hrow]
    exact dotBits_set_second (List.ofFn r) (List.ofFn row) i0.1
      (by simp [i0.2]) (by simp [i0.2]) (by rw [get_ofFn]; exact hr)
  have hequiv : ∀ c' : Bool,
      {row : Fin s → Bool // dotBits (List.ofFn r) (List.ofFn row) = c'}
      ≃ {row : Fin s → Bool // dotBits (List.ofFn r) (List.ofFn row) = !c'} := by
    intro c'
    refine ⟨fun p => ⟨Function.update p.1 i0 (!p.1 i0), by rw [hflip, p.2]⟩,
      fun p => ⟨Function.update p.1 i0 (!p.1 i0), by rw [hflip, p.2, Bool.not_not]⟩,
      ?_, ?_⟩
    · intro p
      apply Subtype.ext
      simp only [Function.update_idem, Function.update_same]
      rw [Bool.not_not, Function.update_eq_self]
    · intro p
      apply Subtype.ext
      simp only [Function.update_idem, Function.update_same]
      rw [Bool.not_not, Function.update_eq_self]
  have hsum : Fintype.card {row : Fin s → Bool //
        dotBits (List.ofFn r) (List.ofFn row) = c}
      + Fintype.card {row : Fin s → Bool //
        dotBits (List.ofFn r) (List.ofFn row) = !c} = 2 ^ s := by
    rw [Fintype.card_subtype, Fintype.card_subtype]
    have hneg : Finset.filter (fun row : Fin s → Bool =>
        dotBits (List.ofFn r) (List.ofFn row) = !c) Finset.univ
        = Finset.filter (fun row : Fin s → Bool =>
        ¬(dotBits (List.ofFn r) (List.ofFn row) = c)) Finset.univ := by
      apply Finset.filter_congr
      intro row _
      cases hdc : dotBits (List.ofFn r) (List.ofFn row) <;> cases c <;> simp
    rw [hneg, Finset.filter_card_add_filter_neg_card_eq_card]
    simp [Fintype.card_fun]
  have hcc : Fintype.card {row : Fin s → Bool //
        dotBits (List.ofFn r) (List.ofFn row) = c}
      = Fintype.card {row : Fin s → Bool //
        dotBits (List.ofFn r) (List.ofFn row) = !c} :=
    Fintype.card_congr (hequiv c)
  have hpow : 2 ^ s = 2 * 2 ^ (s - 1) := by
    have h1 : s - 1 + 1 = s := Nat.succ_pred_eq_of_pos i0.pos
    calc 2 ^ s = 2 ^ (s - 1 + 1) := by rw [h1]
    _ = 2 ^ (s - 1) * 2 := pow_succ 2 (s - 1)
    _ = 2 * 2 ^ (s - 1) := Nat.mul_comm _ _
  omega

lemma hash_cond_iff (t s : Nat) (M : Fin t → Fin s → Bool) (r : Fin s → Bool)
    (b : Fin t → Bool) :
    xor_multiply_matrix_with_bit_string (List.ofFn fun i => List.ofFn (M i))
      (List.ofFn r) = List.ofFn b
    ↔ ∀ i, dotBits (List.ofFn r) (List.ofFn (M i)) = b i := by
  unfold xor_multiply_matrix_with_bit_string
  rw [List.map_ofFn, List.ofFn_inj]
  exact funext_iff

lemma card_matrix_fiber (t s : Nat) (r : Fin s → Bool) (i0 : Fin s)
    (hr : r i0 = true) (b : Fin t → Bool) :
    Fintype.card {M : Fin t → Fin s → Bool //
      xor_multiply_matrix_with_bit_string (List.ofFn fun i => List.ofFn (M i))
        (List.ofFn r) = List.ofFn b}
    = 2 ^ (t * (s - 1)) := by
  calc Fintype.card {M : Fin t → Fin s → Bool //
        xor_multiply_matrix_with_bit_string (List.ofFn fun i => List.ofFn (M i))
          (List.ofFn r) = List.ofFn b}
      = Fintype.card {M : Fin t → Fin s → Bool //
          ∀ i, dotBits (List.ofFn r) (List.ofFn (M i)) = b i} :=
        Fintype.card_congr (Equiv.subtypeEquivRight fun M => hash_cond_iff t s M r b)
    _ = Fintype.card (∀ i : Fin t,
          {row : Fin s → Bool // dotBits (List.ofFn r) (List.ofFn row) = b i}) :=
        Fintype.card_congr (@Equiv.subtypePiEquivPi (Fin t) (fun _ => Fin s → Bool)
          (fun i row => dotBits (List.ofFn r) (List.ofFn row) = b i))
    _ = ∏ i : Fin t,
          Fintype.card {row : Fin s → Bool //
            dotBits (List.ofFn r) (List.ofFn row) = b i} := Fintype.card_pi
    _ = ∏ _i : Fin t, 2 ^ (s - 1) :=
        Finset.prod_congr rfl fun i _ => card_row_fiber s r i0 hr (b i)
    _ = (2 ^ (s - 1)) ^ t := by simp [Finset.prod_const]
    _ = 2 ^ (t * (s - 1)) := by rw [← pow_mul, Nat.mul_comm]

lemma hash_zero_r (t s : Nat) (M : Fin t → Fin s → Bool) :
    xor_multiply_matrix_with_bit_string (List.ofFn fun i => List.ofFn (M i))
      (List.ofFn (fun _ : Fin s => false)) = List.ofFn (fun _ : Fin t => false) := by
  rw [hash_cond_iff]
  intro i
  rw [List.ofFn_const]
  exact dotBits_replicate_false_left s (List.ofFn (M i))

lemma pow_bound_aux (t s : Nat) (hts : t ≤ s) :
    (2 ^ s - 1) * (2 : Nat) ^ (t * (s - 1)) ≤ 2 ^ (s - t) * 2 ^ (t * s) := by
  cases s with
  | zero =>
    have ht0 : t = 0 := Nat.le_zero.mp hts
    subst ht0
    simp
  | succ s' =>
    have hexp : 2 ^ (s' + 1) * 2 ^ (t * (s' + 1 - 1))
        = 2 ^ (s' + 1 - t) * 2 ^ (t * (s' + 1)) := by
      rw [← pow_add, ← pow_add]
      congr 1
      simp only [Nat.add_sub_cancel]
      have hmul : t * (s' + 1) = t * s' + t := Nat.mul_succ t s'
      omega
    calc (2 ^ (s' + 1) - 1) * 2 ^ (t * (s' + 1 - 1))
        ≤ 2 ^ (s' + 1) * 2 ^ (t * (s' + 1 - 1)) :=
          Nat.mul_le_mul_right _ (Nat.sub_le _ _)
      _ = 2 ^ (s' + 1 - t) * 2 ^ (t * (s' + 1)) := hexp

/-- C7: 2-universality bound of the extractor. For every `tau ≤ s` and
every fixed output bin `b`, the total pre-image size of `b` under the hash
`r ↦ M·r`, summed over all `2 ^ (tau*s)` binary matrices `M` (i.e. the
expected bin size multiplied by the number of matrices), is at most
`(2 ^ (s - tau) + 1) * 2 ^ (tau*s)`. -/
theorem hash_expected_preimage_bound (t s : Nat) (hts : t ≤ s) (b : Fin t → Bool) :
    ∑ M : Fin t → Fin s → Bool,
      Fintype.card {r : Fin s → Bool //
        xor_multiply_matrix_with_bit_string (List.ofFn fun i => List.ofFn (M i))
          (List.ofFn r) = List.ofFn b}
    ≤ (2 ^ (s - t) + 1) * 2 ^ (t * s) := by
  have hswap : (∑ M : Fin t → Fin s → Bool,
        Fintype.card {r : Fin s → Bool //
          xor_multiply_matrix_with_bit_string (List.ofFn fun i => List.ofFn (M i))
            (List.ofFn r) = List.ofFn b})
      = ∑ r : Fin s → Bool,
        Fintype.card {M : Fin t → Fin s → Bool //
          xor_multiply_matrix_with_bit_string (List.ofFn fun i => List.ofFn (M i))
            (List.ofFn r) = List.ofFn b} := by
    simp only [Fintype.card_subtype, Finset.card_filter]
    exact Finset.sum_comm
  rw [hswap]
  set r0 : Fin s → Bool := fun _ => false with hr0
  rw [← Finset.sum_erase_add Finset.univ _ (Finset.mem_univ r0)]
  have herase : ∀ r ∈ Finset.univ.erase r0,
      Fintype.card {M : Fin t → Fin s → Bool //
        xor_multiply_matrix_with_bit_string (List.ofFn fun i => List.ofFn (M i))
          (List.ofFn r) = List.ofFn b} = 2 ^ (t * (s - 1)) := by
    intro r hrm
    have hne : r ≠ r0 := (Finset.mem_erase.mp hrm).1
    have hex : ∃ i, r i = true := by
      by_contra hno
      push_neg at hno
      apply hne
      funext i
      have := hno i
      simp only [Bool.not_eq_true] at this
      rw [this, hr0]
    obtain ⟨i0, hi0⟩ := hex
    exact card_matrix_fiber t s r i0 hi0 b
  rw [Finset.sum_congr rfl herase, Finset.sum_const, Finset.card_erase_of_mem
    (Finset.mem_univ r0)]
  have hcard : (Finset.univ : Finset (Fin s → Bool)).card = 2 ^ s := by
    rw [Finset.card_univ, Fintype.card_fun]
    simp
  rw [hcard, smul_eq_mul]
  have hlast : Fintype.card {M : Fin t → Fin s → Bool //
      xor_multiply_matrix_with_bit_string (List.ofFn fun i => List.ofFn (M i))
        (List.ofFn r0) = List.ofFn b} ≤ 2 ^ (t * s) := by
    calc Fintype.card {M : Fin t → Fin s → Bool //
        xor_multiply_matrix_with_bit_string (List.ofFn fun i => List.ofFn (M i))
          (List.ofFn r0) = List.ofFn b} ≤ Fintype.card (Fin t → Fin s → Bool) :=
          Fintype.card_subtype_le _
      _ = 2 ^ (t * s) := by
          rw [Fintype.card_fun, Fintype.card_fun]
          simp [← pow_mul, Nat.mul_comm]
  refine Nat.le_trans (Nat.add_le_add (pow_bound_aux t s hts) hlast) ?_
  rw [Nat.add_mul, Nat.one_mul]

/-- Witness for C7 at `tau = 1`, `s = 2`, zero output bin. -/
theorem hash_expected_preimage_bound_witness :
    (1 : Nat) ≤ 2
    ∧ (∑ M : Fin 1 → Fin 2 → Bool,
        Fintype.card {r : Fin 2 → Bool //
          xor_multiply_matrix_with_bit_string (List.ofFn fun i => List.ofFn (M i))
            (List.ofFn r) = List.ofFn (fun _ : Fin 1 => false)}
      ≤ (2 ^ (2 - 1) + 1) * 2 ^ (1 * 2)) :=
  ⟨by decide, hash_expected_preimage_bound 1 2 (by decide) (fun _ => false)⟩

/-!
Toolkit on `popcount` and `Nat.testBit`, used to verify Gosper's hack in
`kbits`.
-/

lemma popcount_zero : popcount 0 = 0 := by
  rw [popcount]
  simp

lemma popcount_div_two (v : Nat) : popcount v = popcount (v / 2) + v % 2 := by
  rw [popcount]
  split
  · subst v
    simp [popcount_zero]
  · rfl

lemma popcount_two_mul_add (v b : Nat) (hb : b ≤ 1) :
    popcount (2 * v + b) = popcount v + b := by
  rw [popcount_div_two]
  have h1 : (2 * v + b) / 2 = v := by omega
  have h2 : (2 * v + b) % 2 = b := by omega
  rw [h1, h2]

lemma popcount_mul_two_pow (a t : Nat) : popcount (a * 2 ^ t) = popcount a := by
  induction t with
  | zero => simp
  | succ t ih =>
    have h : a * 2 ^ (t + 1) = 2 * (a * 2 ^ t) + 0 := by ring
    rw [h, popcount_two_mul_add _ 0 (by omega), ih, Nat.add_zero]

lemma popcount_two_pow_sub_one (c : Nat) : popcount (2 ^ c - 1) = c := by
  induction c with
  | zero => simpa using popcount_zero
  | succ c ih =>
    have h : 2 ^ (c + 1) - 1 = 2 * (2 ^ c - 1) + 1 := by
      have := Nat.one_le_two_pow (n := c)
      rw [pow_succ]
      omega
    rw [h, popcount_two_mul_add _ 1 (by omega), ih]

lemma popcount_two_pow (c : Nat) : popcount (2 ^ c) = 1 := by
  have h : (2 : Nat) ^ c = 1 * 2 ^ c := (Nat.one_mul _).symm
  rw [h, popcount_mul_two_pow, popcount_div_two]
  simp [popcount_zero]

lemma popcount_eq_zero_iff (v : Nat) : popcount v = 0 ↔ v = 0 := by
  constructor
  · induction v using Nat.strong_induction_on with
    | _ v ih =>
      intro h
      rcases Nat.eq_zero_or_pos v with hv | hv
      · exact hv
      rw [popcount_div_two] at h
      have h2 : v % 2 = 0 := by omega
      have h1 : popcount (v / 2) = 0 := by omega
      have := ih (v / 2) (Nat.div_lt_self hv (by omega)) h1
      omega
  · intro h
    subst h
    exact popcount_zero

lemma popcount_le_of_lt_two_pow (N : Nat) :
    ∀ v : Nat, v < 2 ^ N → popcount v ≤ N := by
  induction N with
  | zero =>
    intro v hv
    have : v = 0 := by simpa using hv
    subst this
    simp [popcount_zero]
  | succ N ih =>
    intro v hv
    rw [popcount_div_two]
    have h1 : v / 2 < 2 ^ N := by
      rw [pow_succ] at hv
      omega
    have := ih (v / 2) h1
    omega

lemma popcount_add_of_lt (a : Nat) (k : Nat) :
    ∀ l : Nat, l < 2 ^ k → popcount (a * 2 ^ k + l) = popcount a + popcount l := by
  induction k with
  | zero =>
    intro l hl
    have : l = 0 := by simpa using hl
    subst this
    simp [popcount_zero]
  | succ k ih =>
    intro l hl
    have hsplit : a * 2 ^ (k + 1) + l = 2 * (a * 2 ^ k + l / 2) + l % 2 := by
      have : a * 2 ^ (k + 1) = 2 * (a * 2 ^ k) := by ring
      omega
    rw [hsplit, popcount_two_mul_add _ _ (by omega)]
    have hl2 : l / 2 < 2 ^ k := by
      rw [pow_succ] at hl
      omega
    rw [ih (l / 2) hl2, popcount_div_two l]
    omega

lemma le_of_popcount_eq (y c : Nat) (h : popcount y = c) : 2 ^ c ≤ y + 1 := by
  induction y using Nat.strong_induction_on generalizing c with
  | _ y ih =>
    rcases Nat.eq_zero_or_pos y with hy | hy
    · subst hy
      rw [popcount_zero] at h
      subst h
      simp
    rw [popcount_div_two] at h
    rcases Nat.lt_or_ge (y % 2) 1 with hpar | hpar
    · have hy2 : 1 ≤ y / 2 := by omega
      have hrec := ih (y / 2) (Nat.div_lt_self hy (by omega)) (c := c) (by omega)
      have : 2 * (y / 2) ≤ y := by omega
      calc 2 ^ c ≤ y / 2 + 1 := hrec
        _ ≤ y + 1 := by omega
    · have hc : 1 ≤ c := by omega
      have hrec := ih (y / 2) (Nat.div_lt_self hy (by omega)) (c := c - 1) (by omega)
      have hstep : 2 ^ c = 2 * 2 ^ (c - 1) := by
        have : c - 1 + 1 = c := by omega
        calc (2 : Nat) ^ c = 2 ^ (c - 1 + 1) := by rw [this]
          _ = 2 ^ (c - 1) * 2 := pow_succ 2 (c - 1)
          _ = 2 * 2 ^ (c - 1) := by ring
      have hodd : y = 2 * (y / 2) + 1 := by omega
      omega

lemma mul_pow_le_of_popcount (N : Nat) :
    ∀ v c : Nat, v < 2 ^ N → popcount v = c → v * 2 ^ c + 2 ^ N ≤ 2 ^ (N + c) := by
  induction N with
  | zero =>
    intro v c hv hc
    have hv0 : v = 0 := by simpa using hv
    subst hv0
    rw [popcount_zero] at hc
    subst hc
    simp
  | succ N ih =>
    intro v c hv hc
    have hv2 : v / 2 < 2 ^ N := by
      rw [pow_succ] at hv
      omega
    rcases Nat.lt_or_ge (v % 2) 1 with hpar | hpar
    · -- v even
      have hceq : popcount (v / 2) = c := by
        rw [popcount_div_two] at hc
        omega
      have hrec := ih (v / 2) c hv2 hceq
      have hveq : v = 2 * (v / 2) := by omega
      have hpow : 2 ^ (N + 1 + c) = 2 * 2 ^ (N + c) := by
        have : N + 1 + c = (N + c) + 1 := by omega
        rw [this, pow_succ]
        ring
      have hpow2 : (2 : Nat) ^ (N + 1) = 2 * 2 ^ N := by
        rw [pow_succ]
        ring
      calc v * 2 ^ c + 2 ^ (N + 1) = 2 * (v / 2 * 2 ^ c + 2 ^ N) := by
            rw [hpow2]
            nth_rewrite 1 [hveq]
            ring
        _ ≤ 2 * 2 ^ (N + c) := by omega
        _ = 2 ^ (N + 1 + c) := hpow.symm
    · -- v odd
      have hc1 : 1 ≤ c := by
        rw [popcount_div_two] at hc
        omega
      have hceq : popcount (v / 2) = c - 1 := by
        rw [popcount_div_two] at hc
        omega
      have hrec := ih (v / 2) (c - 1) hv2 hceq
      have hveq : v = 2 * (v / 2) + 1 := by omega
      have hcsucc : c - 1 + 1 = c := by omega
      have hpowc : (2 : Nat) ^ c = 2 * 2 ^ (c - 1) := by
        calc (2 : Nat) ^ c = 2 ^ (c - 1 + 1) := by rw [hcsucc]
          _ = 2 ^ (c - 1) * 2 := pow_succ 2 (c - 1)
          _ = 2 * 2 ^ (c - 1) := by ring
      have hpowNc : 2 ^ (N + 1 + c) = 4 * 2 ^ (N + (c - 1)) := by
        have : N + 1 + c = (N + (c - 1)) + 2 := by omega
        rw [this]
        have : 2 ^ ((N + (c - 1)) + 2) = 2 ^ (N + (c - 1)) * 2 ^ 2 := pow_add 2 _ 2
        rw [this]
        ring
      have hpowN : (2 : Nat) ^ (N + 1) = 2 * 2 ^ N := by
        rw [pow_succ]
        ring
      have hc1le : 2 ^ (c - 1) ≤ 2 ^ N := by
        apply Nat.pow_le_pow_right (by omega)
        have := popcount_le_of_lt_two_pow N (v / 2) hv2
        omega
      calc v * 2 ^ c + 2 ^ (N + 1)
          = (2 * (v / 2) + 1) * (2 * 2 ^ (c - 1)) + 2 * 2 ^ N := by
            rw [← hveq, ← hpowc, ← hpowN]
        _ = 4 * (v / 2 * 2 ^ (c - 1)) + 2 * 2 ^ (c - 1) + 2 * 2 ^ N := by ring
        _ ≤ 4 * (v / 2 * 2 ^ (c - 1)) + 2 * 2 ^ N + 2 * 2 ^ N := by omega
        _ = 4 * (v / 2 * 2 ^ (c - 1) + 2 ^ N) := by ring
        _ ≤ 4 * 2 ^ (N + (c - 1)) := by omega
        _ = 2 ^ (N + 1 + c) := hpowNc.symm

lemma testBit_split (a k : Nat) :
    ∀ (l i : Nat), l < 2 ^ k →
    (a * 2 ^ k + l).testBit i = if i < k then l.testBit i else a.testBit (i - k) := by
  intro l i hl
  rcases Nat.lt_or_ge i k with hik | hik
  · rw [if_pos hik]
    rw [Nat.testBit_to_div_mod, Nat.testBit_to_div_mod]
    have hk : 2 ^ k = 2 ^ i * 2 ^ (k - i) := by
      rw [← pow_add]
      congr 1
      omega
    have hdiv : (a * 2 ^ k + l) / 2 ^ i = a * 2 ^ (k - i) + l / 2 ^ i := by
      rw [hk]
      have hre : a * (2 ^ i * 2 ^ (k - i)) = 2 ^ i * (a * 2 ^ (k - i)) := by ring
      rw [hre, Nat.mul_add_div (Nat.two_pow_pos i)]
    rw [hdiv]
    have heven : a * 2 ^ (k - i) % 2 = 0 := by
      have hki : 1 ≤ k - i := by omega
      have h2 : 2 ^ (k - i) = 2 * 2 ^ (k - i - 1) := by
        have h1 : k - i - 1 + 1 = k - i := by omega
        calc (2 : Nat) ^ (k - i) = 2 ^ (k - i - 1 + 1) := by rw [h1]
          _ = 2 ^ (k - i - 1) * 2 := pow_succ 2 _
          _ = 2 * 2 ^ (k - i - 1) := by ring
      have h3 : a * (2 * 2 ^ (k - i - 1)) = 2 * (a * 2 ^ (k - i - 1)) := by ring
      rw [h2, h3]
      exact Nat.mul_mod_right 2 _
    have hmod : (a * 2 ^ (k - i) + l / 2 ^ i) % 2 = l / 2 ^ i % 2 := by omega
    rw [hmod]
  · rw [if_neg (by omega)]
    rw [Nat.testBit_to_div_mod, Nat.testBit_to_div_mod]
    have hi : 2 ^ i = 2 ^ k * 2 ^ (i - k) := by
      rw [← pow_add]
      congr 1
      omega
    have hdiv : (a * 2 ^ k + l) / 2 ^ i = a / 2 ^ (i - k) := by
      rw [hi, ← Nat.div_div_eq_div_mul]
      have h1 : (a * 2 ^ k + l) / 2 ^ k = a := by
        rw [Nat.mul_comm a (2 ^ k), Nat.mul_add_div (Nat.two_pow_pos k),
          Nat.div_eq_of_lt hl]
        omega
      rw [h1]
    rw [hdiv]

lemma testBit_bitwiseBits (f : Bool → Bool → Bool) (hf : f false false = false) :
    ∀ (fuel a b i : Nat), a < 2 ^ fuel → b < 2 ^ fuel →
    (bitwiseBits f fuel a b).testBit i = f (a.testBit i) (b.testBit i) := by
  intro fuel
  induction fuel with
  | zero =>
    intro a b i ha hb
    have ha0 : a = 0 := by simpa using ha
    have hb0 : b = 0 := by simpa using hb
    subst ha0
    subst hb0
    simp [bitwiseBits, Nat.zero_testBit, hf]
  | succ fuel ih =>
    intro a b i ha hb
    rw [bitwiseBits]
    split
    · rename_i hz
      obtain ⟨ha0, hb0⟩ := hz
      subst ha0
      subst hb0
      simp [Nat.zero_testBit, hf]
    · set bit : Nat := if f (decide (a % 2 = 1)) (decide (b % 2 = 1)) then 1 else 0 with hbit
      have hbitle : bit ≤ 1 := by
        rw [hbit]
        split <;> omega
      have ha2 : a / 2 < 2 ^ fuel := by
        rw [pow_succ] at ha
        omega
      have hb2 : b / 2 < 2 ^ fuel := by
        rw [pow_succ] at hb
        omega
      cases i with
      | zero =>
        rw [Nat.testBit_zero, Nat.testBit_zero, Nat.testBit_zero]
        have hmod : (2 * bitwiseBits f fuel (a / 2) (b / 2) + bit) % 2 = bit := by
          omega
        rw [hmod, hbit]
        cases hfa : f (decide (a % 2 = 1)) (decide (b % 2 = 1)) <;> simp [hfa]
      | succ i =>
        rw [Nat.testBit_succ, Nat.testBit_succ, Nat.testBit_succ]
        have hdiv : (2 * bitwiseBits f fuel (a / 2) (b / 2) + bit) / 2
            = bitwiseBits f fuel (a / 2) (b / 2) := by
          omega
        rw [hdiv]
        exact ih (a / 2) (b / 2) i ha2 hb2

lemma lt_two_pow_add_one (a b : Nat) : a < 2 ^ (a + b + 1) := by
  calc a < a + b + 1 := by omega
    _ < 2 ^ (a + b + 1) := Nat.lt_two_pow _

lemma testBit_landN (a b i : Nat) :
    (landN a b).testBit i = (a.testBit i && b.testBit i) := by
  unfold landN
  exact testBit_bitwiseBits _ rfl (a + b + 1) a b i (lt_two_pow_add_one a b)
    (by rw [Nat.add_comm a b] at *; exact lt_two_pow_add_one b a)

lemma testBit_lorN (a b i : Nat) :
    (lorN a b).testBit i = (a.testBit i || b.testBit i) := by
  unfold lorN
  exact testBit_bitwiseBits _ rfl (a + b + 1) a b i (lt_two_pow_add_one a b)
    (by rw [Nat.add_comm a b] at *; exact lt_two_pow_add_one b a)

lemma testBit_ldiffN (a b i : Nat) :
    (ldiffN a b).testBit i = (a.testBit i && !b.testBit i) := by
  unfold ldiffN
  exact testBit_bitwiseBits _ rfl (a + b + 1) a b i (lt_two_pow_add_one a b)
    (by rw [Nat.add_comm a b] at *; exact lt_two_pow_add_one b a)

lemma testBit_mul_pow (a k i : Nat) :
    (a * 2 ^ k).testBit i = if i < k then false else a.testBit (i - k) := by
  have h := testBit_split a k 0 i (Nat.two_pow_pos k)
  rw [Nat.add_zero] at h
  rw [h]
  split
  · exact Nat.zero_testBit i
  · rfl

lemma two_pow_succ_eq (n : Nat) : (2 : Nat) ^ (n + 1) = 2 * 2 ^ n := by
  rw [pow_succ]
  ring

lemma ldiffN_odd_mul_pow (A t : Nat) (hA : A % 2 = 1) :
    ldiffN (A * 2 ^ t) (A * 2 ^ t - 1) = 2 ^ t := by
  have hA1 : 1 ≤ A := by omega
  have hpowt := Nat.one_le_two_pow (n := t)
  have hle : 2 ^ t ≤ A * 2 ^ t := Nat.le_mul_of_pos_left (2 ^ t) (by omega)
  have hsub : A * 2 ^ t - 1 = (A - 1) * 2 ^ t + (2 ^ t - 1) := by
    have h1 : (A - 1) * 2 ^ t = A * 2 ^ t - 1 * 2 ^ t := Nat.sub_mul A 1 (2 ^ t)
    rw [Nat.one_mul] at h1
    omega
  apply Nat.eq_of_testBit_eq
  intro i
  rw [testBit_ldiffN, hsub, testBit_mul_pow,
    testBit_split (A - 1) t (2 ^ t - 1) i (by omega)]
  rcases Nat.lt_trichotomy i t with hit | hit | hit
  · rw [if_pos hit, if_pos hit]
    rw [Nat.testBit_two_pow_of_ne (by omega)]
    rfl
  · subst hit
    rw [if_neg (by omega), if_neg (by omega), Nat.sub_self]
    rw [Nat.testBit_zero, Nat.testBit_zero, Nat.testBit_two_pow]
    have h1 : decide (A % 2 = 1) = true := by simp [hA]
    have h2 : decide ((A - 1) % 2 = 1) = false := by
      have h3 : (A - 1) % 2 = 0 := by omega
      simp [h3]
    rw [h1, h2]
    simp
  · rw [if_neg (by omega), if_neg (by omega)]
    rw [Nat.testBit_two_pow_of_ne (by omega)]
    have hik : i - t = (i - t - 1) + 1 := by omega
    rw [hik, Nat.testBit_succ, Nat.testBit_succ]
    have hdiv : A / 2 = (A - 1) / 2 := by omega
    rw [hdiv]
    simp

lemma low_part_lt (t c : Nat) : (2 ^ c - 1) * 2 ^ t < 2 ^ (t + c) := by
  have h1 : (2 ^ c - 1) * 2 ^ t < 2 ^ c * 2 ^ t :=
    (Nat.mul_lt_mul_right (Nat.two_pow_pos t)).mpr
      (by have := Nat.one_le_two_pow (n := c); omega)
  have h2 : (2 : Nat) ^ c * 2 ^ t = 2 ^ (t + c) := by
    rw [← pow_add, Nat.add_comm]
  omega

lemma ldiffN_fill (H t c : Nat) :
    ldiffN (H * 2 ^ (t + c + 1) + 2 ^ (t + c)) (H * 2 ^ (t + c + 1) + (2 ^ c - 1) * 2 ^ t)
      = 2 ^ (t + c) := by
  have hl1 : (2 : Nat) ^ (t + c) < 2 ^ (t + c + 1) := by
    rw [two_pow_succ_eq]
    have := Nat.two_pow_pos (t + c)
    omega
  have hl2 := low_part_lt t c
  apply Nat.eq_of_testBit_eq
  intro i
  rw [testBit_ldiffN,
    testBit_split H (t + c + 1) (2 ^ (t + c)) i hl1,
    testBit_split H (t + c + 1) ((2 ^ c - 1) * 2 ^ t) i (by omega)]
  rcases Nat.lt_trichotomy i (t + c) with hit | hit | hit
  · rw [if_pos (by omega), if_pos (by omega)]
    conv_lhs => rw [Nat.testBit_two_pow_of_ne (by omega : t + c ≠ i)]
    rw [Nat.testBit_two_pow_of_ne (by omega : t + c ≠ i)]
    simp
  · subst hit
    rw [if_pos (by omega), if_pos (by omega)]
    rw [Nat.testBit_lt_two_pow hl2]
    simp
  · rw [if_neg (by omega), if_neg (by omega)]
    rw [Nat.testBit_two_pow_of_ne (by omega : t + c ≠ i)]
    simp

lemma lorN_pow_add (a k b : Nat) (hb : b < 2 ^ k) :
    lorN (a * 2 ^ k) b = a * 2 ^ k + b := by
  apply Nat.eq_of_testBit_eq
  intro i
  rw [testBit_lorN, testBit_mul_pow, testBit_split a k b i hb]
  rcases Nat.lt_or_ge i k with hik | hik
  · rw [if_pos hik, if_pos hik]
    rfl
  · rw [if_neg (by omega), if_neg (by omega)]
    have hbf : b.testBit i = false := by
      apply Nat.testBit_lt_two_pow
      calc b < 2 ^ k := hb
        _ ≤ 2 ^ i := Nat.pow_le_pow_right (by omega) hik
    rw [hbf]
    simp

lemma coe_neg_eq_negSucc (v : Nat) (hv : 1 ≤ v) :
    -(v : Int) = Int.negSucc (v - 1) := by
  cases v with
  | zero => omega
  | succ n =>
    rw [Int.negSucc_eq]
    simp

lemma pyNot_coe (v : Nat) : pyNot (v : Int) = Int.negSucc v := by
  unfold pyNot
  rw [Int.negSucc_eq]
  ring

lemma pyAnd_coe_negSucc (a b : Nat) :
    pyAnd (a : Int) (Int.negSucc b) = ((ldiffN a b : Nat) : Int) := rfl

lemma pyOr_coe (a b : Nat) :
    pyOr (a : Int) (b : Int) = ((lorN a b : Nat) : Int) := rfl

lemma two_pow_mod_two (c : Nat) (hc : 1 ≤ c) : (2 : Nat) ^ c % 2 = 0 := by
  have h1 : (2 : Nat) ^ c = 2 * 2 ^ (c - 1) := by
    have h : c - 1 + 1 = c := by omega
    calc (2 : Nat) ^ c = 2 ^ (c - 1 + 1) := by rw [h]
      _ = 2 ^ (c - 1) * 2 := pow_succ 2 _
      _ = 2 * 2 ^ (c - 1) := by ring
  omega

lemma gosperNext_eval (H t c : Nat) (hc : 1 ≤ c) :
    gosperNext ((H * 2 ^ (t + c + 1) + (2 ^ c - 1) * 2 ^ t : Nat) : Int)
      = ((H * 2 ^ (t + c + 1) + 2 ^ (t + c) + (2 ^ (c - 1) - 1) : Nat) : Int) := by
  set v : Nat := H * 2 ^ (t + c + 1) + (2 ^ c - 1) * 2 ^ t with hv
  have hpowc := Nat.one_le_two_pow (n := c)
  have hpowt := Nat.one_le_two_pow (n := t)
  have hpowc1 := Nat.one_le_two_pow (n := c - 1)
  have hA : v = (H * 2 ^ (c + 1) + (2 ^ c - 1)) * 2 ^ t := by
    rw [hv]
    have hp : (2 : Nat) ^ (t + c + 1) = 2 ^ (c + 1) * 2 ^ t := by
      rw [← pow_add]
      congr 1
      omega
    rw [hp]
    ring
  have hAodd : (H * 2 ^ (c + 1) + (2 ^ c - 1)) % 2 = 1 := by
    have h1 : (2 : Nat) ^ (c + 1) % 2 = 0 := two_pow_mod_two (c + 1) (by omega)
    have h2 : (2 : Nat) ^ c % 2 = 0 := two_pow_mod_two c hc
    have h3 : H * 2 ^ (c + 1) % 2 = 0 := by
      rw [two_pow_succ_eq]
      have h4 : H * (2 * 2 ^ c) = 2 * (H * 2 ^ c) := by ring
      rw [h4]
      exact Nat.mul_mod_right 2 _
    omega
  have hv1 : 1 ≤ v := by
    rw [hA]
    have : 1 ≤ H * 2 ^ (c + 1) + (2 ^ c - 1) := by omega
    calc 1 = 1 * 1 := by omega
      _ ≤ (H * 2 ^ (c + 1) + (2 ^ c - 1)) * 2 ^ t := Nat.mul_le_mul this hpowt
  have hminbit : pyAnd (v : Int) (-(v : Int)) = ((2 ^ t : Nat) : Int) := by
    rw [coe_neg_eq_negSucc v hv1, pyAnd_coe_negSucc]
    congr 1
    calc ldiffN v (v - 1)
        = ldiffN ((H * 2 ^ (c + 1) + (2 ^ c - 1)) * 2 ^ t)
            ((H * 2 ^ (c + 1) + (2 ^ c - 1)) * 2 ^ t - 1) := by rw [← hA]
      _ = 2 ^ t := ldiffN_odd_mul_pow _ t hAodd
  have hlowsum : (2 ^ c - 1) * 2 ^ t + 2 ^ t = 2 ^ (t + c) := by
    have h1 : (2 ^ c - 1) * 2 ^ t = 2 ^ c * 2 ^ t - 1 * 2 ^ t := Nat.sub_mul _ _ _
    rw [Nat.one_mul] at h1
    have h2 : (2 : Nat) ^ c * 2 ^ t = 2 ^ (t + c) := by
      rw [← pow_add, Nat.add_comm]
    have h3 : 2 ^ t ≤ 2 ^ c * 2 ^ t := Nat.le_mul_of_pos_left _ (Nat.two_pow_pos c)
    omega
  have hsum : (v : Int) + ((2 ^ t : Nat) : Int)
      = ((H * 2 ^ (t + c + 1) + 2 ^ (t + c) : Nat) : Int) := by
    have : v + 2 ^ t = H * 2 ^ (t + c + 1) + 2 ^ (t + c) := by
      rw [hv]
      omega
    push_cast [← this]
    ring
  have hfill : pyAnd (((H * 2 ^ (t + c + 1) + 2 ^ (t + c) : Nat)) : Int)
      (pyNot (v : Int)) = ((2 ^ (t + c) : Nat) : Int) := by
    rw [pyNot_coe, pyAnd_coe_negSucc]
    congr 1
    rw [hv]
    exact ldiffN_fill H t c
  have hfdiv : Int.fdiv (((2 ^ (t + c) : Nat)) : Int) (((2 ^ t : Nat) : Int) * 2)
      = ((2 ^ (c - 1) : Nat) : Int) := by
    have hm : ((2 ^ t : Nat) : Int) * 2 = ((2 ^ (t + 1) : Nat) : Int) := by
      push_cast [pow_succ]
      ring
    rw [hm, ← Int.ofNat_fdiv]
    congr 1
    rw [Nat.pow_div (by omega) (by omega)]
    congr 1
    omega
  have hones : ((2 ^ (c - 1) : Nat) : Int) - 1 = ((2 ^ (c - 1) - 1 : Nat) : Int) := by
    rw [Nat.cast_sub hpowc1]
    simp
  have hx : H * 2 ^ (t + c + 1) + 2 ^ (t + c) = (2 * H + 1) * 2 ^ (t + c) := by
    have hp : (2 : Nat) ^ (t + c + 1) = 2 ^ (t + c) * 2 := pow_succ 2 (t + c)
    rw [hp]
    ring
  have hlow : 2 ^ (c - 1) - 1 < 2 ^ (t + c) := by
    have h1 : (2 : Nat) ^ (c - 1) ≤ 2 ^ (t + c) :=
      Nat.pow_le_pow_right (by omega) (by omega)
    omega
  have hor : pyOr (((H * 2 ^ (t + c + 1) + 2 ^ (t + c) : Nat)) : Int)
      (((2 ^ (c - 1) - 1 : Nat)) : Int)
      = ((H * 2 ^ (t + c + 1) + 2 ^ (t + c) + (2 ^ (c - 1) - 1) : Nat) : Int) := by
    rw [pyOr_coe]
    congr 1
    calc lorN (H * 2 ^ (t + c + 1) + 2 ^ (t + c)) (2 ^ (c - 1) - 1)
        = lorN ((2 * H + 1) * 2 ^ (t + c)) (2 ^ (c - 1) - 1) := by rw [hx]
      _ = (2 * H + 1) * 2 ^ (t + c) + (2 ^ (c - 1) - 1) := lorN_pow_add _ _ _ hlow
      _ = H * 2 ^ (t + c + 1) + 2 ^ (t + c) + (2 ^ (c - 1) - 1) := by rw [← hx]
  simp only [gosperNext]
  rw [hminbit, hsum, hfill, hfdiv, hones, hor]

lemma exists_decomp (v : Nat) (hv : 1 ≤ v) :
    ∃ H t c, 1 ≤ c ∧ v = H * 2 ^ (t + c + 1) + (2 ^ c - 1) * 2 ^ t := by
  induction v using Nat.strong_induction_on with
  | _ v ih =>
    rcases Nat.lt_or_ge v 2 with hv2 | hv2
    · -- v = 1
      have hv1 : v = 1 := by omega
      subst hv1
      exact ⟨0, 0, 1, by omega, by norm_num⟩
    rcases Nat.eq_zero_or_pos (v % 2) with hpar | hpar
    · -- v even
      have hu1 : 1 ≤ v / 2 := by omega
      obtain ⟨H, t, c, hc, hu⟩ := ih (v / 2) (by omega) hu1
      refine ⟨H, t + 1, c, hc, ?_⟩
      have hveq : v = 2 * (v / 2) := by omega
      rw [hveq, hu]
      have h1 : (2 : Nat) ^ (t + 1 + c + 1) = 2 * 2 ^ (t + c + 1) := by
        rw [← two_pow_succ_eq]
        congr 1
        omega
      have h2 : (2 : Nat) ^ (t + 1) = 2 * 2 ^ t := two_pow_succ_eq t
      rw [h1, h2]
      ring
    · -- v odd
      have hveq : v = 2 * (v / 2) + 1 := by omega
      rcases Nat.eq_zero_or_pos (v / 2 % 2) with hupar | hupar
      · -- v ≡ 1 mod 4: single trailing one
        refine ⟨v / 2 / 2, 0, 1, by omega, ?_⟩
        have h4 : v / 2 = 2 * (v / 2 / 2) := by omega
        norm_num
        omega
      · -- v / 2 odd: extend its run of trailing ones
        have hu1 : 1 ≤ v / 2 := by omega
        obtain ⟨H, t, c, hc, hu⟩ := ih (v / 2) (by omega) hu1
        have ht0 : t = 0 := by
          by_contra ht
          have ht1 : 1 ≤ t := by omega
          have he1 : (2 : Nat) ^ (t + c + 1) = 2 * 2 ^ (t + c) := two_pow_succ_eq (t + c)
          have he2 : (2 : Nat) ^ t = 2 * 2 ^ (t - 1) := by
            have h : t - 1 + 1 = t := by omega
            calc (2 : Nat) ^ t = 2 ^ (t - 1 + 1) := by rw [h]
              _ = 2 ^ (t - 1) * 2 := pow_succ 2 _
              _ = 2 * 2 ^ (t - 1) := by ring
          have he3 : H * (2 * 2 ^ (t + c)) = 2 * (H * 2 ^ (t + c)) := by ring
          have he4 : (2 ^ c - 1) * (2 * 2 ^ (t - 1)) = 2 * ((2 ^ c - 1) * 2 ^ (t - 1)) := by
            ring
          rw [he1, he2, he3, he4] at hu
          omega
        subst ht0
        refine ⟨H, 0, c + 1, by omega, ?_⟩
        rw [hveq, hu]
        have h1 : (2 : Nat) ^ (0 + c + 1) = 2 * 2 ^ c := by
          rw [← two_pow_succ_eq]
          congr 1
          omega
        have h2 : (2 : Nat) ^ (0 + (c + 1) + 1) = 2 * (2 * 2 ^ c) := by
          rw [← two_pow_succ_eq, ← two_pow_succ_eq]
          congr 1
          omega
        have h3 : (2 : Nat) ^ (c + 1) = 2 * 2 ^ c := two_pow_succ_eq c
        have hpc := Nat.one_le_two_pow (n := c)
        rw [h1, h2, h3]
        have hH : 2 * (H * (2 * 2 ^ c)) = H * (2 * (2 * 2 ^ c)) := by ring
        norm_num
        omega

lemma popcount_decomp (H t c : Nat) :
    popcount (H * 2 ^ (t + c + 1) + (2 ^ c - 1) * 2 ^ t) = popcount H + c := by
  have hl2 := low_part_lt t c
  have hl1 : (2 : Nat) ^ (t + c) < 2 ^ (t + c + 1) := by
    rw [two_pow_succ_eq]
    have := Nat.two_pow_pos (t + c)
    omega
  rw [popcount_add_of_lt H (t + c + 1) _ (by omega), popcount_mul_two_pow,
    popcount_two_pow_sub_one]

lemma popcount_next (H t c : Nat) (hc : 1 ≤ c) :
    popcount (H * 2 ^ (t + c + 1) + 2 ^ (t + c) + (2 ^ (c - 1) - 1))
      = popcount H + c := by
  have hx : H * 2 ^ (t + c + 1) + 2 ^ (t + c) = (2 * H + 1) * 2 ^ (t + c) := by
    rw [pow_succ]
    ring
  have hlow : 2 ^ (c - 1) - 1 < 2 ^ (t + c) := by
    have h1 : (2 : Nat) ^ (c - 1) ≤ 2 ^ (t + c) :=
      Nat.pow_le_pow_right (by omega) (by omega)
    have := Nat.one_le_two_pow (n := c - 1)
    omega
  rw [hx, popcount_add_of_lt _ _ _ hlow, popcount_two_mul_add H 1 (by omega),
    popcount_two_pow_sub_one]
  omega

lemma next_gt (H t c : Nat) :
    H * 2 ^ (t + c + 1) + (2 ^ c - 1) * 2 ^ t
      < H * 2 ^ (t + c + 1) + 2 ^ (t + c) + (2 ^ (c - 1) - 1) := by
  have := low_part_lt t c
  omega

lemma next_min (H t c : Nat) (hc : 1 ≤ c) (w : Nat)
    (h1 : H * 2 ^ (t + c + 1) + (2 ^ c - 1) * 2 ^ t < w)
    (h2 : w < H * 2 ^ (t + c + 1) + 2 ^ (t + c) + (2 ^ (c - 1) - 1)) :
    popcount w ≠ popcount H + c := by
  intro hpc
  have hcl : (2 : Nat) ^ (c - 1) ≤ 2 ^ (t + c) :=
    Nat.pow_le_pow_right (by omega) (by omega)
  have hl1 : (2 : Nat) ^ (t + c + 1) = 2 * 2 ^ (t + c) := by
    rw [← two_pow_succ_eq]
  have hub : w < H * 2 ^ (t + c + 1) + 2 ^ (t + c + 1) := by
    have := Nat.one_le_two_pow (n := c - 1)
    omega
  set u := w - H * 2 ^ (t + c + 1) with hu
  have hwu : w = H * 2 ^ (t + c + 1) + u := by omega
  have hult : u < 2 ^ (t + c + 1) := by omega
  have hpcu : popcount u = c := by
    rw [hwu, popcount_add_of_lt H _ u hult] at hpc
    omega
  rcases Nat.lt_or_ge u (2 ^ (t + c)) with hcase | hcase
  · -- below the new top bit: contradicts maximality of (2^c-1)*2^t
    have hbound := mul_pow_le_of_popcount (t + c) u c hcase hpcu
    have hpow1 : (2 : Nat) ^ (t + c + c) = 2 ^ (t + c) * 2 ^ c := pow_add 2 _ _
    have hpow2 : (2 ^ c - 1) * 2 ^ (t + c) = ((2 ^ c - 1) * 2 ^ t) * 2 ^ c := by
      have h : (2 : Nat) ^ (t + c) = 2 ^ t * 2 ^ c := pow_add 2 t c
      rw [h]
      ring
    have hle : u * 2 ^ c ≤ ((2 ^ c - 1) * 2 ^ t) * 2 ^ c := by
      have hible : u * 2 ^ c + 2 ^ (t + c) ≤ 2 ^ (t + c) * 2 ^ c := by
        rw [← hpow1]
        have h : t + c + c = (t + c) + c := by omega
        rw [h] at hbound ⊢
        exact hbound
      have hsub : (2 ^ c - 1) * 2 ^ (t + c) = 2 ^ (t + c) * 2 ^ c - 2 ^ (t + c) := by
        rw [Nat.sub_mul, Nat.one_mul]
        ring_nf
      omega
    have hufin : u ≤ (2 ^ c - 1) * 2 ^ t :=
      Nat.le_of_mul_le_mul_right hle (Nat.two_pow_pos c)
    omega
  · -- above the new top bit: contradicts minimality of 2^(c-1)-1
    set y := u - 2 ^ (t + c) with hy
    have huy : u = 1 * 2 ^ (t + c) + y := by omega
    have hylt : y < 2 ^ (t + c) := by omega
    have hy2 : y < 2 ^ (c - 1) - 1 := by omega
    have hpcy : popcount y = c - 1 := by
      rw [huy, popcount_add_of_lt 1 _ y hylt] at hpcu
      have h1 : popcount 1 = 1 := by
        have := popcount_two_pow 0
        simpa using this
      omega
    have := le_of_popcount_eq y (c - 1) hpcy
    omega

lemma gosperNext_correct (v : Nat) (hv : 1 ≤ v) :
    ∃ w : Nat, gosperNext (v : Int) = (w : Int) ∧ v < w ∧ popcount w = popcount v
      ∧ ∀ u : Nat, v < u → popcount u = popcount v → w ≤ u := by
  obtain ⟨H, t, c, hc, hveq⟩ := exists_decomp v hv
  refine ⟨H * 2 ^ (t + c + 1) + 2 ^ (t + c) + (2 ^ (c - 1) - 1), ?_, ?_, ?_, ?_⟩
  · rw [hveq]
    exact gosperNext_eval H t c hc
  · rw [hveq]
    exact next_gt H t c
  · rw [hveq, popcount_next H t c hc, popcount_decomp H t c]
  · intro u hu hpc
    by_contra hlt
    push_neg at hlt
    apply next_min H t c hc u (by omega) hlt
    rw [hpc, hveq, popcount_decomp H t c]

lemma toBits_length (n : Nat) : ∀ v : Nat, (toBits n v).length = n := by
  induction n with
  | zero => intro v; rfl
  | succ n ih =>
    intro v
    simp only [toBits, List.length_append, List.length_cons, List.length_nil, ih]

lemma weight_append_singleton (l : List Bool) (b : Bool) :
    weight (l ++ [b]) = weight l + (if b then 1 else 0) := by
  unfold weight
  rw [List.filter_append]
  cases b <;> simp

lemma weight_toBits (n : Nat) : ∀ v : Nat, v < 2 ^ n →
    weight (toBits n v) = popcount v := by
  induction n with
  | zero =>
    intro v hv
    have hv0 : v = 0 := by simpa using hv
    subst hv0
    simp [toBits, weight, popcount_zero]
  | succ n ih =>
    intro v hv
    have hv2 : v / 2 < 2 ^ n := by
      rw [pow_succ] at hv
      omega
    simp only [toBits]
    rw [weight_append_singleton, ih (v / 2) hv2, popcount_div_two v]
    rcases Nat.mod_two_eq_zero_or_one v with h | h <;> simp [h]

lemma ofBits_append_singleton (l : List Bool) (b : Bool) :
    ofBits (l ++ [b]) = 2 * ofBits l + (if b then 1 else 0) := by
  unfold ofBits
  rw [List.foldl_append]
  rfl

lemma ofBits_toBits (n : Nat) : ∀ v : Nat, v < 2 ^ n → ofBits (toBits n v) = v := by
  induction n with
  | zero =>
    intro v hv
    have hv0 : v = 0 := by simpa using hv
    subst hv0
    rfl
  | succ n ih =>
    intro v hv
    have hv2 : v / 2 < 2 ^ n := by
      rw [pow_succ] at hv
      omega
    simp only [toBits]
    rw [ofBits_append_singleton, ih (v / 2) hv2]
    rcases Nat.mod_two_eq_zero_or_one v with h | h <;> simp [h] <;> omega

lemma ofBits_lt (l : List Bool) : ofBits l < 2 ^ l.length := by
  induction l using List.reverseRecOn with
  | nil => simp [ofBits]
  | append_singleton l b ih =>
    rw [ofBits_append_singleton]
    simp only [List.length_append, List.length_cons, List.length_nil]
    rw [pow_succ]
    cases b <;> simp <;> omega

lemma popcount_ofBits (l : List Bool) : popcount (ofBits l) = weight l := by
  induction l using List.reverseRecOn with
  | nil => simpa [ofBits, weight] using popcount_zero
  | append_singleton l b ih =>
    rw [ofBits_append_singleton, weight_append_singleton,
      popcount_two_mul_add _ _ (by split <;> omega), ih]

lemma toBits_ofBits (l : List Bool) : toBits l.length (ofBits l) = l := by
  induction l using List.reverseRecOn with
  | nil => rfl
  | append_singleton l b ih =>
    have hlen : (l ++ [b]).length = l.length + 1 := by simp
    rw [hlen, ofBits_append_singleton]
    simp only [toBits]
    have hdiv : (2 * ofBits l + (if b then 1 else 0)) / 2 = ofBits l := by
      split <;> omega
    have hmod : decide ((2 * ofBits l + (if b then 1 else 0)) % 2 = 1) = b := by
      cases b with
      | false => simp
      | true =>
        simp
        omega
    rw [hdiv, hmod, ih]

lemma filter_popcount_range_empty (k w a b : Nat)
    (hmin : ∀ u, a ≤ u → popcount u = k → w ≤ u) (hub : a + b ≤ w) :
    (List.range' a b).filter (fun v => decide (popcount v = k)) = [] := by
  rw [List.filter_eq_nil_iff]
  intro u hu
  rw [List.mem_range'_1] at hu
  simp only [decide_eq_true_eq]
  intro hpc
  have := hmin u hu.1 hpc
  omega

lemma kbitsAux_eq (n k : Nat) :
    ∀ (fuel val : Nat), 1 ≤ val → popcount val = k → 2 ^ n ≤ val + fuel →
    kbitsAux n ((2 ^ n : Nat) : Int) fuel (val : Int)
      = ((List.range' val (2 ^ n - val)).filter
          (fun v => decide (popcount v = k))).map (toBits n) := by
  intro fuel
  induction fuel with
  | zero =>
    intro val h1 hpc hf
    have hz : 2 ^ n - val = 0 := by omega
    rw [hz]
    rfl
  | succ fuel ih =>
    intro val h1 hpc hf
    rw [kbitsAux]
    by_cases hlt : val < 2 ^ n
    · rw [if_pos (by exact_mod_cast hlt)]
      obtain ⟨w, hwEq, hwGt, hwPc, hwMin⟩ := gosperNext_correct val h1
      have htn : ((val : Int)).toNat = val := Int.toNat_natCast val
      rw [htn, hwEq, ih w (by omega) (by rw [hwPc, hpc]) (by omega)]
      have hmin : ∀ u, val + 1 ≤ u → popcount u = k → w ≤ u := by
        intro u hu hpcu
        exact hwMin u (by omega) (by rw [hpcu, hpc])
      rcases Nat.lt_or_ge w (2 ^ n) with hw | hw
      · -- w still below the limit: split the range at w
        have hsplit : List.range' val (2 ^ n - val)
            = List.range' val (w - val) ++ List.range' w (2 ^ n - w) := by
          have harr := List.range'_append val (w - val) (2 ^ n - w) 1
          rw [Nat.one_mul] at harr
          have h2 : val + (w - val) = w := by omega
          rw [h2] at harr
          have h3 : 2 ^ n - w + (w - val) = 2 ^ n - val := by omega
          rw [h3] at harr
          exact harr.symm
        have hfront : List.range' val (w - val)
            = val :: List.range' (val + 1) (w - val - 1) := by
          have h4 : w - val = (w - val - 1) + 1 := by omega
          rw [h4, List.range'_succ]
          simp
        rw [hsplit, List.filter_append, hfront, List.filter_cons,
          if_pos (by simp [hpc]),
          filter_popcount_range_empty k w (val + 1) (w - val - 1) hmin (by omega)]
        simp
      · -- w passed the limit: everything after val is filtered out
        have hrest : List.range' w (2 ^ n - w) = [] := by
          have hz : 2 ^ n - w = 0 := by omega
          rw [hz]
          rfl
        have hfront : List.range' val (2 ^ n - val)
            = val :: List.range' (val + 1) (2 ^ n - val - 1) := by
          have h4 : 2 ^ n - val = (2 ^ n - val - 1) + 1 := by omega
          rw [h4, List.range'_succ]
          simp
        rw [hrest, hfront, List.filter_cons, if_pos (by simp [hpc]),
          filter_popcount_range_empty k w (val + 1) (2 ^ n - val - 1) hmin (by omega)]
        simp
    · rw [if_neg (by exact_mod_cast hlt)]
      have hz : 2 ^ n - val = 0 := by omega
      rw [hz]
      rfl

lemma kbits_eq_filter (n k : Nat) (hk : 1 ≤ k) (hkn : k ≤ n) :
    kbits n k = ((List.range (2 ^ n)).filter
      (fun v => decide (popcount v = k))).map (toBits n) := by
  unfold kbits
  have hk2 : 2 ≤ 2 ^ k := by
    calc (2 : Nat) = 2 ^ 1 := (pow_one 2).symm
      _ ≤ 2 ^ k := Nat.pow_le_pow_right (by omega) hk
  have hkn2 : 2 ^ k ≤ 2 ^ n := Nat.pow_le_pow_right (by omega) hkn
  have hstart : (((1 <<< k : Nat) : Int) - 1) = (((2 ^ k - 1 : Nat)) : Int) := by
    rw [Nat.shiftLeft_eq, Nat.one_mul, Nat.cast_sub Nat.one_le_two_pow]
    simp
  have hlim : ((1 <<< n : Nat) : Int) = ((2 ^ n : Nat) : Int) := by
    rw [Nat.shiftLeft_eq, Nat.one_mul]
  rw [hstart, hlim,
    kbitsAux_eq n k (2 ^ n) (2 ^ k - 1) (by omega) (popcount_two_pow_sub_one k)
      (by omega)]
  have hr : List.range (2 ^ n)
      = List.range' 0 (2 ^ k - 1) ++ List.range' (2 ^ k - 1) (2 ^ n - (2 ^ k - 1)) := by
    rw [List.range_eq_range']
    have harr := List.range'_append 0 (2 ^ k - 1) (2 ^ n - (2 ^ k - 1)) 1
    rw [Nat.one_mul, Nat.zero_add] at harr
    have h3 : 2 ^ n - (2 ^ k - 1) + (2 ^ k - 1) = 2 ^ n := by omega
    rw [h3] at harr
    exact harr.symm
  have hlowempty : (List.range' 0 (2 ^ k - 1)).filter
      (fun v => decide (popcount v = k)) = [] := by
    rw [List.filter_eq_nil_iff]
    intro u hu
    rw [List.mem_range'_1] at hu
    simp only [decide_eq_true_eq]
    intro hpc
    have := le_of_popcount_eq u k hpc
    omega
  rw [hr, List.filter_append, hlowempty, List.nil_append]

lemma kbits_nil_of_lt (n k : Nat) (h : n < k) : kbits n k = [] := by
  unfold kbits
  have h1 : (2 : Nat) ^ n < 2 ^ k := Nat.pow_lt_pow_right (by omega) h
  have h2 : ∃ m, 2 ^ n = m + 1 := ⟨2 ^ n - 1, by have := Nat.two_pow_pos n; omega⟩
  obtain ⟨m, hm⟩ := h2
  rw [hm, kbitsAux]
  rw [if_neg]
  rw [Nat.shiftLeft_eq, Nat.one_mul, Nat.shiftLeft_eq, Nat.one_mul]
  have h3 : ((2 ^ k : Nat) : Int) - 1 = ((2 ^ k - 1 : Nat) : Int) := by
    rw [Nat.cast_sub Nat.one_le_two_pow]
    simp
  rw [h3]
  rw [Int.not_lt]
  exact_mod_cast Nat.le_sub_one_of_lt h1

lemma kbits_mem_iff (n k : Nat) (hk : 1 ≤ k) (hkn : k ≤ n) (s : List Bool) :
    s ∈ kbits n k ↔ (s.length = n ∧ weight s = k) := by
  rw [kbits_eq_filter n k hk hkn]
  constructor
  · intro hs
    rw [List.mem_map] at hs
    obtain ⟨v, hvmem, hvs⟩ := hs
    rw [List.mem_filter, List.mem_range] at hvmem
    obtain ⟨hvlt, hvpc⟩ := hvmem
    simp only [decide_eq_true_eq] at hvpc
    subst hvs
    exact ⟨toBits_length n v, by rw [weight_toBits n v hvlt, hvpc]⟩
  · intro ⟨hlen, hw⟩
    rw [List.mem_map]
    refine ⟨ofBits s, ?_, ?_⟩
    · rw [List.mem_filter, List.mem_range]
      refine ⟨by rw [← hlen]; exact ofBits_lt s, ?_⟩
      simp only [decide_eq_true_eq]
      rw [popcount_ofBits, hw]
    · rw [← hlen]
      exact toBits_ofBits s

lemma kbits_pairwise (n k : Nat) (hk : 1 ≤ k) (hkn : k ≤ n) :
    (kbits n k).Pairwise (fun a b => ofBits a < ofBits b) := by
  rw [kbits_eq_filter n k hk hkn]
  rw [List.pairwise_map]
  have hp : ((List.range (2 ^ n)).filter
      (fun v => decide (popcount v = k))).Pairwise (· < ·) :=
    (List.pairwise_lt_range _).filter _
  refine hp.imp_of_mem ?_
  intro a b ha hb hab
  rw [List.mem_filter, List.mem_range] at ha hb
  rw [ofBits_toBits n a ha.1, ofBits_toBits n b hb.1]
  exact hab

/-- C9: `kbits n k` yields exactly the length-`n` bit strings of Hamming
weight exactly `k` — a string is yielded iff it has length `n` and weight
`k`, pairwise strict increase of the numeric values gives each string
exactly once and in strictly increasing numeric order. -/
theorem kbits_exact_enumeration (n k : Nat) (hk : 1 ≤ k) (hkn : k ≤ n) :
    (∀ s : List Bool, s ∈ kbits n k ↔ (s.length = n ∧ weight s = k))
    ∧ (kbits n k).Pairwise (fun a b => ofBits a < ofBits b) :=
  ⟨fun s => kbits_mem_iff n k hk hkn s, kbits_pairwise n k hk hkn⟩

/-- Witness for C9 at `n = 3`, `k = 1`: the enumeration property holds,
and in particular it gives exactly the three one-hot strings. -/
theorem kbits_exact_enumeration_witness :
    (1 : Nat) ≤ 1 ∧ (1 : Nat) ≤ 3
    ∧ ((∀ s : List Bool, s ∈ kbits 3 1 ↔ (s.length = 3 ∧ weight s = 1))
      ∧ (kbits 3 1).Pairwise (fun a b => ofBits a < ofBits b)) :=
  ⟨by decide, by decide, kbits_exact_enumeration 3 1 (by decide) (by decide)⟩

lemma kbits_sound (n k : Nat) (hk : 1 ≤ k) :
    ∀ e ∈ kbits n k, e.length = n ∧ weight e = k := by
  rcases le_or_lt k n with h | h
  · intro e he
    exact (kbits_mem_iff n k hk h e).mp he
  · rw [kbits_nil_of_lt n k h]
    intro e he
    simp at he

lemma weight_replicate_false (n : Nat) : weight (List.replicate n false) = 0 := by
  induction n with
  | zero => rfl
  | succ n ih =>
    unfold weight at ih ⊢
    rw [List.replicate_succ, List.filter_cons]
    simp only [id_eq, Bool.false_eq_true, if_false]
    exact ih

lemma mem_dictInsert {α β : Type} [DecidableEq α] (k : α) (v : β)
    (l : List (α × β)) (p : α × β) (hp : p ∈ dictInsert k v l) :
    p = (k, v) ∨ p ∈ l := by
  induction l with
  | nil => simpa [dictInsert] using hp
  | cons q t ih =>
    simp only [dictInsert] at hp
    split at hp
    · rcases List.mem_cons.mp hp with h | h
      · exact Or.inl h
      · exact Or.inr (List.mem_cons_of_mem _ h)
    · rcases List.mem_cons.mp hp with h | h
      · exact Or.inr (h ▸ List.mem_cons_self _ _)
      · rcases ih h with h2 | h2
        · exact Or.inl h2
        · exact Or.inr (List.mem_cons_of_mem _ h2)

lemma lookup_dictInsert_ne (k k0 : List Bool) (v : List Bool)
    (l : List (List Bool × List Bool)) (h : k ≠ k0) :
    (dictInsert k v l).lookup k0 = l.lookup k0 := by
  induction l with
  | nil =>
    simp only [dictInsert, List.lookup_cons, List.lookup_nil]
    have hne : (k0 == k) = false := by
      simp [Ne.symm h]
    rw [hne]
  | cons q t ih =>
    simp only [dictInsert]
    split
    · rename_i heq
      rcases q with ⟨qk, qv⟩
      simp only at heq
      subst heq
      simp only [List.lookup_cons]
      have hne : (k0 == qk) = false := by
        simp [Ne.symm h]
      rw [hne]
    · rcases q with ⟨qk, qv⟩
      simp only [List.lookup_cons]
      cases hqk : k0 == qk
      · exact ih
      · rfl

lemma foldl_invariant {α β : Type} (P : β → Prop) (f : β → α → β) (l : List α)
    (init : β) (hinit : P init) (hstep : ∀ b a, a ∈ l → P b → P (f b a)) :
    P (l.foldl f init) := by
  induction l generalizing init with
  | nil => exact hinit
  | cons a t ih =>
    rw [List.foldl_cons]
    exact ih (f init a) (hstep init a (List.mem_cons_self _ _) hinit)
      (fun b x hx hb => hstep b x (List.mem_cons_of_mem _ hx) hb)

/-- C10: invariants of `build_decoding_lookup_table`. Unconditionally,
every entry's value is a bit string of length `codeword_length` and
weight at most `max_error_string_weight`, and every entry with a nonzero
value has its key equal to the syndrome `e · H_transpose` of its value;
provided additionally that no nonzero error pattern enumerated by the
construction has the all-zero syndrome, the all-zero syndrome key maps to
the all-zero error pattern. -/
theorem build_decoding_lookup_table_invariants (codeword_length w : Nat)
    (entry : List Bool × List Bool)
    (hmem : entry ∈ build_decoding_lookup_table codeword_length w) :
    (entry.2.length = codeword_length ∧ weight entry.2 ≤ w)
    ∧ (entry.2 ≠ List.replicate codeword_length false →
        entry.1 = multiply_bit_string_with_matrix entry.2 H_transpose)
    ∧ ((∀ wt ∈ List.range' 1 w, ∀ e ∈ kbits codeword_length wt,
          multiply_bit_string_with_matrix e H_transpose
            ≠ List.replicate parity_check_matrix.length false) →
        (build_decoding_lookup_table codeword_length w).lookup
          (List.replicate parity_check_matrix.length false)
        = some (List.replicate codeword_length false)) := by
  have hentries :
      ∀ p ∈ build_decoding_lookup_table codeword_length w,
        (p.2.length = codeword_length ∧ weight p.2 ≤ w)
        ∧ (p.2 ≠ List.replicate codeword_length false →
            p.1 = multiply_bit_string_with_matrix p.2 H_transpose) := by
    unfold build_decoding_lookup_table
    refine foldl_invariant (fun tbl : List (List Bool × List Bool) =>
      ∀ p ∈ tbl, (p.2.length = codeword_length ∧ weight p.2 ≤ w)
        ∧ (p.2 ≠ List.replicate codeword_length false →
            p.1 = multiply_bit_string_with_matrix p.2 H_transpose)) _ _ _ ?_ ?_
    · -- the seeded table
      intro p hp
      rcases mem_dictInsert _ _ _ _ hp with h | h
      · subst h
        refine ⟨⟨List.length_replicate _ _, ?_⟩, ?_⟩
        · rw [weight_replicate_false]
          omega
        · intro hne
          exact absurd rfl hne
      · simp at h
    · -- each pass over one weight preserves the entry invariants
      intro tbl wt hwt htbl
      refine foldl_invariant (fun tbl : List (List Bool × List Bool) =>
        ∀ p ∈ tbl, (p.2.length = codeword_length ∧ weight p.2 ≤ w)
          ∧ (p.2 ≠ List.replicate codeword_length false →
              p.1 = multiply_bit_string_with_matrix p.2 H_transpose)) _ _ _ htbl ?_
      intro tbl2 e he htbl2 p hp
      have hwt2 : 1 ≤ wt ∧ wt ≤ w := by
        rw [List.mem_range'_1] at hwt
        omega
      have hes := kbits_sound codeword_length wt hwt2.1 e he
      rcases mem_dictInsert _ _ _ _ hp with h | h
      · subst h
        refine ⟨⟨hes.1, ?_⟩, fun _ => rfl⟩
        have hwe : weight e = wt := hes.2
        simp only [hwe]
        omega
      · exact htbl2 p h
  have hlook :
      (∀ wt ∈ List.range' 1 w, ∀ e ∈ kbits codeword_length wt,
        multiply_bit_string_with_matrix e H_transpose
          ≠ List.replicate parity_check_matrix.length false) →
      (build_decoding_lookup_table codeword_length w).lookup
        (List.replicate parity_check_matrix.length false)
      = some (List.replicate codeword_length false) := by
    intro hproviso
    unfold build_decoding_lookup_table
    refine foldl_invariant (fun tbl : List (List Bool × List Bool) =>
      tbl.lookup (List.replicate parity_check_matrix.length false)
        = some (List.replicate codeword_length false)) _ _ _ ?_ ?_
    · simp [dictInsert, List.lookup_cons]
    · intro tbl wt hwt htbl
      refine foldl_invariant (fun tbl : List (List Bool × List Bool) =>
        tbl.lookup (List.replicate parity_check_matrix.length false)
          = some (List.replicate codeword_length false)) _ _ _ htbl ?_
      intro tbl2 e he htbl2
      rw [lookup_dictInsert_ne _ _ _ _ (hproviso wt hwt e he)]
      exact htbl2
  exact ⟨(hentries entry hmem).1, (hentries entry hmem).2, hlook⟩

/-- Witness for C10 at the repository's own instantiation
(`codeword_length = 15`, `w = 1`): the table entry mapping syndrome
`1000` to the weight-1 pattern at position 0 satisfies the unconditional
invariants, and — the proviso being decidable and true here — the
all-zero syndrome maps to the all-zero pattern. -/
theorem build_decoding_lookup_table_invariants_witness :
    (rowBits [1, 0, 0, 0], oneHot 15 0) ∈ build_decoding_lookup_table 15 1
    ∧ (((oneHot 15 0).length = 15 ∧ weight (oneHot 15 0) ≤ 1)
      ∧ (oneHot 15 0 ≠ List.replicate 15 false →
          rowBits [1, 0, 0, 0] = multiply_bit_string_with_matrix (oneHot 15 0) H_transpose)
      ∧ (build_decoding_lookup_table 15 1).lookup
          (List.replicate parity_check_matrix.length false)
        = some (List.replicate 15 false)) :=
  ⟨by decide,
    (build_decoding_lookup_table_invariants 15 1
      (rowBits [1, 0, 0, 0], oneHot 15 0) (by decide)).1,
    (build_decoding_lookup_table_invariants 15 1
      (rowBits [1, 0, 0, 0], oneHot 15 0) (by decide)).2.1,
    (build_decoding_lookup_table_invariants 15 1
      (rowBits [1, 0, 0, 0], oneHot 15 0) (by decide)).2.2 (by decide)⟩

/-!
Development for the exactness of the saved weight-1 Hamming decoder on
codewords.
-/

lemma dotBits_xorVec_left (x : List Bool) :
    ∀ (e c : List Bool), x.length = e.length →
    dotBits (xorVec x e) c = xor (dotBits x c) (dotBits e c) := by
  induction x with
  | nil =>
    intro e c hlen
    cases e with
    | nil => simp [xorVec, dotBits]
    | cons y t => simp at hlen
  | cons a x ih =>
    intro e c hlen
    cases e with
    | nil => simp at hlen
    | cons b e =>
      cases c with
      | nil => simp [dotBits_nil_right]
      | cons z c =>
        simp only [List.length_cons, Nat.add_right_cancel_iff] at hlen
        rw [xorVec_cons, dotBits_cons, dotBits_cons, dotBits_cons, ih e c hlen]
        cases a <;> cases b <;> cases z <;>
          cases dotBits x c <;> cases dotBits e c <;> rfl

lemma map_xor_of_maps (m : List (List Bool)) (f g : List Bool → Bool) :
    xorVec (m.map f) (m.map g) = m.map (fun row => xor (f row) (g row)) := by
  induction m with
  | nil => rfl
  | cons row m ih => simp [xorVec, ih]

lemma xor_mult_xorVec (m : List (List Bool)) (x e : List Bool)
    (hlen : x.length = e.length) :
    xor_multiply_matrix_with_bit_string m (xorVec x e)
      = xorVec (xor_multiply_matrix_with_bit_string m x)
          (xor_multiply_matrix_with_bit_string m e) := by
  unfold xor_multiply_matrix_with_bit_string
  rw [map_xor_of_maps]
  apply List.map_congr_left
  intro row _
  exact dotBits_xorVec_left x e row hlen

lemma xorVec_replicate_false_left (b : List Bool) :
    xorVec (List.replicate b.length false) b = b := by
  induction b with
  | nil => rfl
  | cons y b ih =>
    simp only [List.length_cons, List.replicate_succ, xorVec_cons, ih]
    cases y <;> rfl

lemma eq_replicate_of_weight_zero (e : List Bool) (h : weight e = 0) :
    e = List.replicate e.length false := by
  induction e with
  | nil => rfl
  | cons x t ih =>
    cases x with
    | false =>
      have h2 : weight t = 0 := by
        unfold weight at h ⊢
        rw [List.filter_cons] at h
        simpa using h
      simp only [List.length_cons, List.replicate_succ]
      rw [← ih h2]
    | true =>
      exfalso
      unfold weight at h
      rw [List.filter_cons] at h
      simp at h

/-- Counterexample to C5 as stated: syndrome-decoding an arbitrary string
with zero injected errors does not return it unchanged. The weight-1
string `oneHot 15 0` is decoded to the all-zero string by the saved
weight-1 Hamming table (the Hamming code is perfect and maps every
nonzero syndrome to a nonzero pattern). -/
theorem syndrome_decode_counterexample :
    syndromeDecode parity_check_matrix decoding_lookup_table (oneHot 15 0)
      = List.replicate 15 false
    ∧ syndromeDecode parity_check_matrix decoding_lookup_table (oneHot 15 0)
      ≠ oneHot 15 0 := by
  constructor
  · decide
  · decide

/-- C5 (amended): exactness of the saved syndrome decoder on codewords.
For every length-15 string `x` in the code (zero syndrome) and every
injected error pattern of weight at most 1 (the table's correctable
bound), decoding `x` with zero injected errors returns it unchanged and
decoding `x XOR e` recovers `x` exactly. -/
theorem syndrome_decode_codeword_exact (x : List Bool) (hx : x.length = 15)
    (hcw : xor_multiply_matrix_with_bit_string parity_check_matrix x
      = List.replicate 4 false)
    (e : List Bool) (he : e.length = 15) (hw : weight e ≤ 1) :
    syndromeDecode parity_check_matrix decoding_lookup_table x = x
    ∧ syndromeDecode parity_check_matrix decoding_lookup_table (xorVec x e) = x := by
  have hdecx : syndromeDecode parity_check_matrix decoding_lookup_table x = x := by
    unfold syndromeDecode
    rw [hcw]
    have hz : decoding_lookup_table.lookup (List.replicate 4 false)
        = some (List.replicate 15 false) := by decide
    rw [hz]
    show xorVec x (List.replicate 15 false) = x
    rw [← hx]
    exact xorVec_replicate_false_right x
  refine ⟨hdecx, ?_⟩
  rcases Nat.lt_or_ge (weight e) 1 with hw0 | hw1
  · -- zero injected errors
    have he0 : e = List.replicate 15 false := by
      have := eq_replicate_of_weight_zero e (by omega)
      rw [he] at this
      exact this
    rw [he0, ← hx, xorVec_replicate_false_right x]
    exact hdecx
  · -- a single injected error
    have hwe : weight e = 1 := by omega
    have hek : e ∈ kbits 15 1 := (kbits_mem_iff 15 1 (by omega) (by omega) e).mpr ⟨he, hwe⟩
    have hlin := xor_mult_xorVec parity_check_matrix x e (by omega)
    have hlenes : (xor_multiply_matrix_with_bit_string parity_check_matrix e).length = 4 := by
      unfold xor_multiply_matrix_with_bit_string
      rw [List.length_map]
      rfl
    have hsynd : xor_multiply_matrix_with_bit_string parity_check_matrix (xorVec x e)
        = xor_multiply_matrix_with_bit_string parity_check_matrix e := by
      rw [hlin, hcw, ← hlenes]
      exact xorVec_replicate_false_left _
    have hlut : ∀ f ∈ kbits 15 1,
        decoding_lookup_table.lookup
          (xor_multiply_matrix_with_bit_string parity_check_matrix f) = some f := by
      decide
    unfold syndromeDecode
    rw [hsynd, hlut e hek]
    show xorVec (xorVec x e) e = x
    exact xorVec_cancel x e (by omega)

/-- Witness for C5 at a concrete nonzero codeword (`x` with ones at
positions 0, 1, 2: the columns 1, 2, 3 of the parity-check matrix XOR to
zero) and the single-bit error at position 5. -/
theorem syndrome_decode_codeword_exact_witness :
    (rowBits [1, 1, 1, 0, 0, 0, 0, 0, 0, 0, 0, 0, 0, 0, 0]).length = 15
    ∧ xor_multiply_matrix_with_bit_string parity_check_matrix
        (rowBits [1, 1, 1, 0, 0, 0, 0, 0, 0, 0, 0, 0, 0, 0, 0])
      = List.replicate 4 false
    ∧ (oneHot 15 5).length = 15 ∧ weight (oneHot 15 5) ≤ 1
    ∧ (syndromeDecode parity_check_matrix decoding_lookup_table
        (rowBits [1, 1, 1, 0, 0, 0, 0, 0, 0, 0, 0, 0, 0, 0, 0])
        = rowBits [1, 1, 1, 0, 0, 0, 0, 0, 0, 0, 0, 0, 0, 0, 0]
      ∧ syndromeDecode parity_check_matrix decoding_lookup_table
          (xorVec (rowBits [1, 1, 1, 0, 0, 0, 0, 0, 0, 0, 0, 0, 0, 0, 0]) (oneHot 15 5))
        = rowBits [1, 1, 1, 0, 0, 0, 0, 0, 0, 0, 0, 0, 0, 0, 0]) :=
  ⟨by decide, by decide, by decide, by decide,
    syndrome_decode_codeword_exact _ (by decide) (by decide) (oneHot 15 5)
      (by decide) (by decide)⟩

end CertifiedDeletion
